import Mathlib

/-!
# Clocker — verification of the punch-aggregation core

Shallow embedding of `src/utils/timeUtils.ts` (the time-utility module the
app imports) and `src/storage/punchStorage.ts` of the Clocker repository.

Modelling conventions:
* A JavaScript `Date` / ISO timestamp is its epoch value in milliseconds,
  an integer `ℤ`.  All computation in the source uses local wall-clock
  time; the embedding instantiates the local zone as a fixed zero-offset
  zone with uniform 86 400 000 ms days (the spec's scenarios are written
  in that zone), so `setHours(0,0,0,0)` is flooring to a day multiple.
* JavaScript numbers are modelled as exact rationals `ℚ`;
  `Number(x.toFixed(2))` is rounding to a multiple of 1/100, half toward
  +∞ (the tie rule of `toFixed`, which picks the larger candidate).
* `Array.prototype.sort` is stable (ES2019), modelled by `insertionSort`.
* JavaScript `Map` is an association list in insertion order: `set` of a
  present key updates it in place, of a new key appends it.
* The `while` loops of `getDailyTotals` advance a day cursor; they are
  embedded with an explicit iteration count that equals the number of
  calendar days available to the cursor, which the loop never exceeds
  (`dailyWalk_fuel_enough` below proves the count is never exhausted
  while the loop guard still holds).
-/

namespace Clocker

/-- `Punch.type` of `src/storage/punchStorage.ts`: `'in' | 'out'`. -/
inductive PunchType where
  | pin : PunchType
  | pout : PunchType
deriving DecidableEq, Repr

/-- A punch record `{timestamp, type}` (`src/storage/punchStorage.ts`),
the timestamp as epoch milliseconds. -/
structure Punch where
  timestamp : ℤ
  type : PunchType
deriving DecidableEq, Repr

/-- Milliseconds per hour, the `1000 * 60 * 60` of the source. -/
def msPerHour : ℚ := 3600000

/-- Milliseconds per local calendar day. -/
def msPerDay : ℤ := 86400000

/-- `Number(x.toFixed(2))`: round to a multiple of 1/100, ties toward +∞
(`toFixed` picks the larger of two equally near candidates). -/
def jsToFixed2 (q : ℚ) : ℚ := (((q * 100 + 1 / 2).floor : ℤ) : ℚ) / 100

/-- `getStartOfDay` (`timeUtils.ts`): `setHours(0,0,0,0)`, i.e. the start
of the local calendar day containing `t`. -/
def getStartOfDay (t : ℤ) : ℤ := msPerDay * (t.fdiv msPerDay)

/-- `getEndOfDay` (`timeUtils.ts`): `setHours(23,59,59,999)`. -/
def getEndOfDay (t : ℤ) : ℤ := getStartOfDay t + 86399999

/-- `Date.prototype.getDay`: day of week, 0 = Sunday.  1970-01-01 was a
Thursday (= 4). -/
def jsGetDay (t : ℤ) : ℤ := (t.fdiv msPerDay + 4).emod 7

/-- `getStartOfWeek` (`timeUtils.ts`): go back `getDay` days, then
`setHours(0,0,0,0)` — the Sunday 00:00:00 starting the week of `t`. -/
def getStartOfWeek (t : ℤ) : ℤ := getStartOfDay t - jsGetDay t * msPerDay

/-- `isSameDay` (`timeUtils.ts`): equal local year, month and day, i.e.
the same local calendar day. -/
def isSameDay (t1 t2 : ℤ) : Prop := t1.fdiv msPerDay = t2.fdiv msPerDay

instance : DecidablePred fun p : ℤ × ℤ => isSameDay p.1 p.2 :=
  fun p => inferInstanceAs (Decidable (p.1.fdiv msPerDay = p.2.fdiv msPerDay))

instance (t1 t2 : ℤ) : Decidable (isSameDay t1 t2) :=
  inferInstanceAs (Decidable (t1.fdiv msPerDay = t2.fdiv msPerDay))

/-- `calculateHoursBetween` (`timeUtils.ts`): millisecond difference over
3 600 000, `toFixed(2)`-rounded. -/
def calculateHoursBetween (startTime endTime : ℤ) : ℚ :=
  jsToFixed2 (((endTime - startTime : ℤ) : ℚ) / msPerHour)

/-- The comparator `(a, b) => aTime - bTime` of the source's sorts, as the
ordering relation of a stable sort. -/
def punchLE (a b : Punch) : Prop := a.timestamp ≤ b.timestamp

instance : DecidableRel punchLE :=
  fun a b => inferInstanceAs (Decidable (a.timestamp ≤ b.timestamp))

instance : IsTotal Punch punchLE := ⟨fun a b => le_total a.timestamp b.timestamp⟩

instance : IsTrans Punch punchLE := ⟨fun _ _ _ hab hbc => le_trans hab hbc⟩

/-- `[...punches].sort((a, b) => aTime - bTime)`: stable ascending sort by
timestamp. -/
def sortPunches (l : List Punch) : List Punch := l.insertionSort punchLE

/-- One iteration of the pairing loop of `calculateHoursWorkedToday`
(`timeUtils.ts`): state is (accumulated hours, open IN slot). -/
def todayStep (todayStart todayEnd : ℤ) (st : ℚ × Option ℤ) (p : Punch) :
    ℚ × Option ℤ :=
  match p.type with
  | .pin => (st.1, some p.timestamp)
  | .pout =>
    match st.2 with
    | none => st
    | some tIn =>
      if p.timestamp ≤ tIn then (st.1, none)
      else
        let effectiveStart := max tIn todayStart
        let effectiveEnd := min p.timestamp todayEnd
        if effectiveStart < effectiveEnd then
          (st.1 + calculateHoursBetween effectiveStart effectiveEnd, none)
        else (st.1, none)

/-- `calculateHoursWorkedToday` (`timeUtils.ts`), with the evaluation
instant `now` (`new Date()`) passed explicitly. -/
def calculateHoursWorkedToday (allPunches : List Punch) (now : ℤ) : ℚ :=
  if allPunches = [] then 0
  else
    let todayStart := getStartOfDay now
    let todayEnd := getEndOfDay now
    let st := (sortPunches allPunches).foldl (todayStep todayStart todayEnd) (0, none)
    let total :=
      match st.2 with
      | none => st.1
      | some tIn =>
        if tIn < now then
          let effectiveStart := max tIn todayStart
          let capAtNow := min now todayEnd
          if effectiveStart < capAtNow then
            st.1 + calculateHoursBetween effectiveStart capAtNow
          else st.1
        else st.1
    jsToFixed2 total

/-- One iteration of the pairing loop of `calculateTotalHours`
(`timeUtils.ts`): state is (accumulated milliseconds, open IN slot).
Note the source adds `punchTime - lastInPunch` with no validity guard. -/
def totalStep (st : ℤ × Option ℤ) (p : Punch) : ℤ × Option ℤ :=
  match p.type with
  | .pin => (st.1, some p.timestamp)
  | .pout =>
    match st.2 with
    | none => st
    | some tIn => (st.1 + (p.timestamp - tIn), none)

/-- `calculateTotalHours` (`timeUtils.ts`), the evaluation instant `now`
passed explicitly. -/
def calculateTotalHours (punches : List Punch) (now : ℤ) : ℚ :=
  if punches = [] then 0
  else
    let st := (sortPunches punches).foldl totalStep (0, none)
    let totalMilliseconds :=
      match st.2 with
      | none => st.1
      | some tIn => st.1 + (now - tIn)
    jsToFixed2 ((totalMilliseconds : ℚ) / msPerHour)

/-- JavaScript `Map.get`, on a `Map` modelled as an association list in
insertion order. -/
def mapGet {β : Type} : List (ℤ × β) → ℤ → Option β
  | [], _ => none
  | e :: rest, k => if e.1 = k then some e.2 else mapGet rest k

/-- JavaScript `Map.set`: a present key is updated in place, a new key is
appended at the end. -/
def mapSet {β : Type} : List (ℤ × β) → ℤ → β → List (ℤ × β)
  | [], k, v => [(k, v)]
  | e :: rest, k, v => if e.1 = k then (k, v) :: rest else e :: mapSet rest k v

/-- `dailyHoursMap.set(dayKey, (dailyHoursMap.get(dayKey) || 0) + h)` of
`getDailyTotals`. -/
def mapAdd (m : List (ℤ × ℚ)) (k : ℤ) (v : ℚ) : List (ℤ × ℚ) :=
  mapSet m k (((mapGet m k).getD 0) + v)

/-- The body of one iteration of the segment walk of `getDailyTotals`
(`timeUtils.ts`): attribute `[cursor, min tOut (endOfDay cursor)]` to the
cursor's day. -/
def walkBody (tOut cursor : ℤ) (m : List (ℤ × ℚ)) : List (ℤ × ℚ) :=
  let dayKey := getStartOfDay cursor
  let endOfCurrentDay := getEndOfDay cursor
  let segmentEnd := if tOut < endOfCurrentDay then tOut else endOfCurrentDay
  if cursor < segmentEnd then mapAdd m dayKey (calculateHoursBetween cursor segmentEnd)
  else m

/-- The `while (currentSegmentStart < tOut)` segment walk of a closed
session in `getDailyTotals` (`timeUtils.ts`), including its exact-midnight
special case.  `fuel` bounds the iterations; `dailyWalk` below supplies
one unit per calendar day of the inclusive range from the cursor's day to
the day of `tOut`, and the cursor advances by a full day per iteration, so
the loop never runs out of fuel before its own exit condition. -/
def dailyWalkAux (tIn tOut : ℤ) : ℕ → ℤ → List (ℤ × ℚ) → List (ℤ × ℚ)
  | 0, _, m => m
  | fuel + 1, cursor, m =>
    if cursor < tOut then
      let m1 := walkBody tOut cursor m
      let nextDayStart := getStartOfDay cursor + msPerDay
      if tOut < nextDayStart ∧ isSameDay cursor tOut then
        if tOut = getStartOfDay tOut ∧ ¬ isSameDay tIn tOut then
          if (mapGet m1 (getStartOfDay tOut)).isSome then m1
          else mapSet m1 (getStartOfDay tOut) 0
        else m1
      else dailyWalkAux tIn tOut fuel nextDayStart m1
    else m

/-- The closed-session segment walk, started at `cursor = tIn`. -/
def dailyWalk (tIn tOut : ℤ) (m : List (ℤ × ℚ)) : List (ℤ × ℚ) :=
  dailyWalkAux tIn tOut ((tOut.fdiv msPerDay - tIn.fdiv msPerDay).toNat + 1) tIn m

/-- The `while (currentSegmentStart < tNow)` walk of the final dangling
IN punch in `getDailyTotals` (`timeUtils.ts`) — same walk without the
exact-midnight special case. -/
def openWalkAux (tNow : ℤ) : ℕ → ℤ → List (ℤ × ℚ) → List (ℤ × ℚ)
  | 0, _, m => m
  | fuel + 1, cursor, m =>
    if cursor < tNow then
      let m1 := walkBody tNow cursor m
      let nextDayStart := getStartOfDay cursor + msPerDay
      if tNow < nextDayStart ∧ isSameDay cursor tNow then m1
      else openWalkAux tNow fuel nextDayStart m1
    else m

/-- The dangling-IN walk, started at `cursor = tIn`. -/
def openWalk (tNow tIn : ℤ) (m : List (ℤ × ℚ)) : List (ℤ × ℚ) :=
  openWalkAux tNow ((tNow.fdiv msPerDay - tIn.fdiv msPerDay).toNat + 1) tIn m

/-- One iteration of the pairing loop of `getDailyTotals` (`timeUtils.ts`):
state is (daily hours map, open IN slot). -/
def dailyStep (st : List (ℤ × ℚ) × Option ℤ) (p : Punch) :
    List (ℤ × ℚ) × Option ℤ :=
  match p.type with
  | .pin => (st.1, some p.timestamp)
  | .pout =>
    match st.2 with
    | none => st
    | some tIn =>
      if p.timestamp ≤ tIn then (st.1, none)
      else (dailyWalk tIn p.timestamp st.1, none)

/-- The daily hours map of `getDailyTotals` after the pairing loop and the
dangling-IN walk, together with the dangling IN slot (which the fill step
of the source still reads). -/
def dailyMapOf (sorted : List Punch) (now : ℤ) : List (ℤ × ℚ) × Option ℤ :=
  let st := sorted.foldl dailyStep ([], none)
  match st.2 with
  | none => st
  | some tIn => (if tIn < now then openWalk now tIn st.1 else st.1, some tIn)

/-- The gap-filling loop of `getDailyTotals`: every day key from `cursor`
to `endDateLimit` missing from the map is set to 0.  One fuel unit per day
of the inclusive range; the loop runs exactly that often. -/
def fillDaysAux (endDateLimit : ℤ) : ℕ → ℤ → List (ℤ × ℚ) → List (ℤ × ℚ)
  | 0, _, m => m
  | fuel + 1, cursor, m =>
    if cursor ≤ endDateLimit then
      let m1 := if (mapGet m cursor).isSome then m else mapSet m cursor 0
      fillDaysAux endDateLimit fuel (cursor + msPerDay) m1
    else m

/-- The gap-filling loop started at the first punch's day. -/
def fillDays (endDateLimit firstDay : ℤ) (m : List (ℤ × ℚ)) : List (ℤ × ℚ) :=
  fillDaysAux endDateLimit
    ((endDateLimit.fdiv msPerDay - firstDay.fdiv msPerDay).toNat + 1) firstDay m

theorem dailyWalkAux_succ (tIn tOut : ℤ) (fuel : ℕ) (cursor : ℤ) (m : List (ℤ × ℚ)) :
    dailyWalkAux tIn tOut (fuel + 1) cursor m =
      if cursor < tOut then
        (if tOut < getStartOfDay cursor + msPerDay ∧ isSameDay cursor tOut then
          (if tOut = getStartOfDay tOut ∧ ¬ isSameDay tIn tOut then
            (if (mapGet (walkBody tOut cursor m) (getStartOfDay tOut)).isSome then
              walkBody tOut cursor m
            else mapSet (walkBody tOut cursor m) (getStartOfDay tOut) 0)
          else walkBody tOut cursor m)
        else dailyWalkAux tIn tOut fuel (getStartOfDay cursor + msPerDay)
          (walkBody tOut cursor m))
      else m := rfl

theorem openWalkAux_succ (tNow : ℤ) (fuel : ℕ) (cursor : ℤ) (m : List (ℤ × ℚ)) :
    openWalkAux tNow (fuel + 1) cursor m =
      if cursor < tNow then
        (if tNow < getStartOfDay cursor + msPerDay ∧ isSameDay cursor tNow then
          walkBody tNow cursor m
        else openWalkAux tNow fuel (getStartOfDay cursor + msPerDay)
          (walkBody tNow cursor m))
      else m := rfl

theorem fillDaysAux_succ (endDateLimit : ℤ) (fuel : ℕ) (cursor : ℤ)
    (m : List (ℤ × ℚ)) :
    fillDaysAux endDateLimit (fuel + 1) cursor m =
      if cursor ≤ endDateLimit then
        fillDaysAux endDateLimit fuel (cursor + msPerDay)
          (if (mapGet m cursor).isSome then m else mapSet m cursor 0)
      else m := rfl

/-- The comparator `(a, b) => b.date - a.date` of the final descending
sorts, as the ordering relation of a stable sort on map entries. -/
def entryGE {β : Type} (a b : ℤ × β) : Prop := b.1 ≤ a.1

instance {β : Type} : DecidableRel (entryGE (β := β)) :=
  fun a b => inferInstanceAs (Decidable (b.1 ≤ a.1))

instance {β : Type} : IsTotal (ℤ × β) entryGE := ⟨fun a b => le_total b.1 a.1⟩

instance {β : Type} : IsTrans (ℤ × β) entryGE := ⟨fun _ _ _ hab hbc => le_trans hbc hab⟩

/-- The fill bounds of `getDailyTotals`: `firstPunchDate` and
`endDateLimit` (the last punch's day, or today's when an IN is dangling). -/
def dailyBounds (sorted : List Punch) (dangling : Option ℤ) (now : ℤ) : ℤ × ℤ :=
  match sorted with
  | [] => (0, 0)
  | first :: rest =>
    let firstPunchDate := getStartOfDay first.timestamp
    let lastPunchDate :=
      getStartOfDay (((first :: rest).getLast (List.cons_ne_nil first rest)).timestamp)
    (firstPunchDate, match dangling with
      | some _ => getStartOfDay now
      | none => lastPunchDate)

/-- `getDailyTotals` (`timeUtils.ts`), the evaluation instant `now` passed
explicitly.  A `DayBucket`'s `date` (`new Date(y, m-1, d)`, local
midnight) is the day's start in epoch milliseconds. -/
def getDailyTotals (allPunches : List Punch) (now : ℤ) : List (ℤ × ℚ) :=
  if allPunches = [] then []
  else
    let sorted := sortPunches allPunches
    let md := dailyMapOf sorted now
    let m2 :=
      if md.1 = [] then md.1
      else
        let b := dailyBounds sorted md.2 now
        fillDays b.2 b.1 md.1
    (m2.map (fun e => (e.1, jsToFixed2 e.2))).insertionSort entryGE

/-- One iteration of the week-grouping loop of `getWeeklyTotals`
(`timeUtils.ts`): append the punch to its week's group, creating the
group if absent. -/
def groupStep (m : List (ℤ × List Punch)) (p : Punch) : List (ℤ × List Punch) :=
  let weekKey := getStartOfWeek p.timestamp
  mapSet m weekKey (((mapGet m weekKey).getD []) ++ [p])

/-- `getWeeklyTotals` (`timeUtils.ts`), the evaluation instant `now`
passed explicitly.  A `WeekBucket`'s `weekStart` is the Sunday-start
epoch milliseconds. -/
def getWeeklyTotals (punches : List Punch) (now : ℤ) : List (ℤ × ℚ) :=
  if punches = [] then []
  else
    let punchesByWeek := punches.foldl groupStep []
    (punchesByWeek.map (fun e => (e.1, calculateTotalHours e.2 now))).insertionSort entryGE

/-- The stable descending sort of `loadPunches`
(`(a, b) => bTime - aTime`). -/
def punchGE (a b : Punch) : Prop := b.timestamp ≤ a.timestamp

instance : DecidableRel punchGE :=
  fun a b => inferInstanceAs (Decidable (b.timestamp ≤ a.timestamp))

/-- A storage read: the underlying `AsyncStorage.getItem` either throws,
returns no stored value, or returns a (parsed) punch list. -/
def StoreRead : Type := Except Unit (Option (List Punch))

/-- A storage write outcome: `AsyncStorage.setItem` either throws or
succeeds. -/
def StoreWrite : Type := Except Unit Unit

/-- `loadPunches` (`punchStorage.ts`): on a read failure the catch block
returns `[]`; otherwise the stored punches sorted newest first. -/
def loadPunches (read : StoreRead) : List Punch :=
  match read with
  | .error _ => []
  | .ok none => []
  | .ok (some punches) => punches.insertionSort punchGE

/-- `savePunch` (`punchStorage.ts`): load (read failures already swallowed
by `loadPunches`), append, write; a write failure is rethrown as
`Failed to save punch`.  The success value is the list written. -/
def savePunch (read : StoreRead) (write : StoreWrite) (punch : Punch) :
    Except Unit (List Punch) :=
  match write with
  | .error e => .error e
  | .ok _ => .ok (loadPunches read ++ [punch])

/-- `deletePunch` (`punchStorage.ts`): load, drop the punches with the
given timestamp, write; a write failure is rethrown. -/
def deletePunch (read : StoreRead) (write : StoreWrite) (timestamp : ℤ) :
    Except Unit (List Punch) :=
  match write with
  | .error e => .error e
  | .ok _ => .ok ((loadPunches read).filter (fun p => ¬ p.timestamp = timestamp))

/-- `updatePunch` (`punchStorage.ts`): load, replace the punches with the
old timestamp, write; a write failure is rethrown. -/
def updatePunch (read : StoreRead) (write : StoreWrite) (oldTimestamp : ℤ)
    (updatedPunch : Punch) : Except Unit (List Punch) :=
  match write with
  | .error e => .error e
  | .ok _ => .ok ((loadPunches read).map
      (fun p => if p.timestamp = oldTimestamp then updatedPunch else p))

/-! ## Session pairing per the spec, and spec-side sums

`pairStep`/`sessionsOf` follow the wording of §4.1 of the spec (sort, scan
with a single open-IN slot, discard an OUT at or before its IN while still
clearing the slot); the claims C3/C4/C7 quantify over these sessions. -/

/-- One scan step of the spec's session pairing (§4.1): on IN overwrite
the slot, on OUT emit `(IN, OUT)` when `IN < OUT`, discard otherwise,
clearing the slot either way. -/
def pairStep (st : List (ℤ × ℤ) × Option ℤ) (p : Punch) :
    List (ℤ × ℤ) × Option ℤ :=
  match p.type with
  | .pin => (st.1, some p.timestamp)
  | .pout =>
    match st.2 with
    | none => st
    | some tIn =>
      if p.timestamp ≤ tIn then (st.1, none)
      else (st.1 ++ [(tIn, p.timestamp)], none)

/-- The closed sessions and the open IN slot of a punch list (§4.1). -/
def sessionsOf (l : List Punch) : List (ℤ × ℤ) × Option ℤ :=
  l.foldl pairStep ([], none)

/-- A session's contribution to "today": the program's 2-decimal duration
of the intersection of `[IN, OUT]` with `[todayStart, todayEnd]`, 0 when
that intersection is empty. -/
def todayClip (todayStart todayEnd : ℤ) (se : ℤ × ℤ) : ℚ :=
  let a := max se.1 todayStart
  let b := min se.2 todayEnd
  if a < b then calculateHoursBetween a b else 0

/-- The sum over all sessions — closed, or open with end = `now` — of
today's clipped contributions (the spec's contract for
`calculateHoursWorkedToday`, §4.2). -/
def sessionTodaySum (ps : List Punch) (now : ℤ) : ℚ :=
  let cs := sessionsOf (sortPunches ps)
  (cs.1.map (todayClip (getStartOfDay now) (getEndOfDay now))).sum +
    (match cs.2 with
     | none => 0
     | some tIn => todayClip (getStartOfDay now) (getEndOfDay now) (tIn, now))

/-- A session's exact (unrounded) clipped duration in hours, as claim C7
reads the accumulation. -/
def exactClip (todayStart todayEnd : ℤ) (se : ℤ × ℤ) : ℚ :=
  let a := max se.1 todayStart
  let b := min se.2 todayEnd
  if a < b then ((b - a : ℤ) : ℚ) / msPerHour else 0

/-- Claim C7's reading of `calculateHoursWorkedToday`: exact per-session
accumulation, rounded to 2 decimal places exactly once, on the final sum. -/
def specTodayOnce (ps : List Punch) (now : ℤ) : ℚ :=
  let cs := sessionsOf (sortPunches ps)
  jsToFixed2
    ((cs.1.map (exactClip (getStartOfDay now) (getEndOfDay now))).sum +
      (match cs.2 with
       | none => 0
       | some tIn => exactClip (getStartOfDay now) (getEndOfDay now) (tIn, now)))

/-! ## Arithmetic facts about the 2-decimal rounding -/

/-- A rational that is a whole number of hundredths. -/
def Cent (q : ℚ) : Prop := ∃ k : ℤ, q = (k : ℚ) / 100

theorem cent_zero : Cent 0 := ⟨0, by norm_num⟩

theorem cent_add {a b : ℚ} (ha : Cent a) (hb : Cent b) : Cent (a + b) := by
  obtain ⟨j, rfl⟩ := ha
  obtain ⟨k, rfl⟩ := hb
  exact ⟨j + k, by push_cast; ring⟩

theorem ratFloor_eq_intFloor (q : ℚ) : q.floor = ⌊q⌋ :=
  (Rat.floor_def' q).trans Rat.floor_def.symm

theorem cent_jsToFixed2 (q : ℚ) : Cent (jsToFixed2 q) := ⟨(q * 100 + 1 / 2).floor, rfl⟩

theorem jsToFixed2_cent {q : ℚ} (h : Cent q) : jsToFixed2 q = q := by
  obtain ⟨k, rfl⟩ := h
  unfold jsToFixed2
  rw [ratFloor_eq_intFloor]
  have h100 : ((k : ℚ) / 100) * 100 = (k : ℚ) := by ring
  rw [h100]
  have : ⌊(k : ℚ) + 1 / 2⌋ = k := by
    rw [add_comm, Int.floor_add_int]
    norm_num
  rw [this]

theorem cent_sum {l : List ℚ} (h : ∀ x ∈ l, Cent x) : Cent l.sum := by
  induction l with
  | nil => simpa using cent_zero
  | cons a t ih =>
    rw [List.sum_cons]
    exact cent_add (h a (List.mem_cons_self a t))
      (ih fun x hx => h x (List.mem_cons_of_mem a hx))

theorem jsToFixed2_nonneg {q : ℚ} (h : 0 ≤ q) : 0 ≤ jsToFixed2 q := by
  unfold jsToFixed2
  rw [ratFloor_eq_intFloor]
  have hfloor : (0 : ℤ) ≤ ⌊q * 100 + 1 / 2⌋ := by
    rw [Int.le_floor]
    push_cast
    nlinarith
  exact div_nonneg (by exact_mod_cast hfloor) (by norm_num)

theorem calculateHoursBetween_nonneg {s e : ℤ} (h : s ≤ e) :
    0 ≤ calculateHoursBetween s e := by
  unfold calculateHoursBetween
  apply jsToFixed2_nonneg
  apply div_nonneg
  · exact_mod_cast sub_nonneg.mpr h
  · norm_num [msPerHour]

theorem cent_calculateHoursBetween (s e : ℤ) : Cent (calculateHoursBetween s e) :=
  cent_jsToFixed2 _

theorem cent_todayClip (ds de : ℤ) (se : ℤ × ℤ) : Cent (todayClip ds de se) := by
  unfold todayClip
  dsimp only
  split
  · exact cent_jsToFixed2 _
  · exact cent_zero

theorem fdiv_day (t : ℤ) : t.fdiv msPerDay = t / 86400000 :=
  Int.fdiv_eq_ediv t (by norm_num [msPerDay])

theorem getStartOfDay_eq (t : ℤ) : getStartOfDay t = 86400000 * (t / 86400000) := by
  unfold getStartOfDay
  rw [fdiv_day]
  norm_num [msPerDay]

theorem jsGetDay_eq (t : ℤ) : jsGetDay t = (t / 86400000 + 4) % 7 := by
  unfold jsGetDay
  rw [fdiv_day]
  rfl

theorem isSameDay_eq (t1 t2 : ℤ) : isSameDay t1 t2 ↔ t1 / 86400000 = t2 / 86400000 := by
  unfold isSameDay
  rw [fdiv_day, fdiv_day]

theorem getStartOfWeek_eq (t : ℤ) :
    getStartOfWeek t = 86400000 * (t / 86400000) - (t / 86400000 + 4) % 7 * 86400000 := by
  unfold getStartOfWeek
  rw [getStartOfDay_eq, jsGetDay_eq]
  rfl

theorem getStartOfDay_le (t : ℤ) : getStartOfDay t ≤ t := by
  rw [getStartOfDay_eq]
  omega

theorem le_getEndOfDay (t : ℤ) : t ≤ getEndOfDay t := by
  unfold getEndOfDay
  rw [getStartOfDay_eq]
  omega

/-! ## The pairing scan against the aggregation scans -/

theorem pairFold_take :
    ∀ (l : List Punch) (cs : List (ℤ × ℤ)) (o : Option ℤ),
      l.foldl pairStep (cs, o) =
        (cs ++ (l.foldl pairStep ([], o)).1, (l.foldl pairStep ([], o)).2) := by
  intro l
  induction l with
  | nil => intro cs o; simp
  | cons p t ih =>
    intro cs o
    rcases p with ⟨ts, ty⟩
    cases ty
    case pin =>
      simp only [List.foldl_cons, pairStep]
      exact ih cs (some ts)
    case pout =>
      rcases o with _ | tIn
      · simp only [List.foldl_cons, pairStep]
        exact ih cs none
      · by_cases hle : ts ≤ tIn
        · simp only [List.foldl_cons, pairStep, if_pos hle]
          exact ih cs none
        · simp only [List.foldl_cons, pairStep, if_neg hle, List.nil_append]
          rw [ih (cs ++ [(tIn, ts)]) none, ih [(tIn, ts)] none]
          simp

theorem todayFold_eq_pairFold (ds de : ℤ) :
    ∀ (l : List Punch) (acc : ℚ) (o : Option ℤ),
      l.foldl (todayStep ds de) (acc, o) =
        (acc + ((l.foldl pairStep ([], o)).1.map (todayClip ds de)).sum,
          (l.foldl pairStep ([], o)).2) := by
  intro l
  induction l with
  | nil => intro acc o; simp
  | cons p t ih =>
    intro acc o
    rcases p with ⟨ts, ty⟩
    cases ty
    case pin =>
      simp only [List.foldl_cons, todayStep, pairStep]
      exact ih acc (some ts)
    case pout =>
      rcases o with _ | tIn
      · simp only [List.foldl_cons, todayStep, pairStep]
        exact ih acc none
      · by_cases hle : ts ≤ tIn
        · simp only [List.foldl_cons, todayStep, pairStep, if_pos hle]
          exact ih acc none
        · simp only [List.foldl_cons, todayStep, pairStep, if_neg hle, List.nil_append]
          rw [pairFold_take t [(tIn, ts)] none]
          by_cases hlt : max tIn ds < min ts de
          · rw [if_pos hlt, ih (acc + calculateHoursBetween (max tIn ds) (min ts de)) none]
            simp [todayClip, hlt, add_assoc]
          · rw [if_neg hlt, ih acc none]
            simp [todayClip, hlt]

theorem cent_clip_sum (ds de : ℤ) (cs : List (ℤ × ℤ)) :
    Cent ((cs.map (todayClip ds de)).sum) := by
  apply cent_sum
  intro x hx
  obtain ⟨se, _, rfl⟩ := List.mem_map.mp hx
  exact cent_todayClip ds de se

theorem cent_sessionTodaySum (ps : List Punch) (now : ℤ) :
    Cent (sessionTodaySum ps now) := by
  unfold sessionTodaySum
  apply cent_add (cent_clip_sum _ _ _)
  cases (sessionsOf (sortPunches ps)).2
  · exact cent_zero
  · exact cent_todayClip _ _ _

theorem todayClip_of_now_le {now tIn : ℤ} (h : now ≤ tIn) :
    todayClip (getStartOfDay now) (getEndOfDay now) (tIn, now) = 0 := by
  unfold todayClip
  dsimp only
  rw [if_neg]
  exact not_lt.mpr (le_trans (min_le_left _ _) (le_trans h (le_max_left _ _)))

/-- `calculateHoursWorkedToday` is the clipped-session sum of §4.2. -/
theorem today_eq_sessionSum (ps : List Punch) (now : ℤ) :
    calculateHoursWorkedToday ps now = sessionTodaySum ps now := by
  unfold calculateHoursWorkedToday
  by_cases hps : ps = []
  · subst hps
    simp [sessionTodaySum, sessionsOf, sortPunches, List.insertionSort]
  · rw [if_neg hps]
    dsimp only
    rw [todayFold_eq_pairFold (getStartOfDay now) (getEndOfDay now) (sortPunches ps) 0 none]
    dsimp only
    unfold sessionTodaySum sessionsOf
    dsimp only
    rcases ho : (List.foldl pairStep ([], none) (sortPunches ps)).2 with _ | tIn
    · dsimp only
      rw [jsToFixed2_cent (cent_add cent_zero (cent_clip_sum _ _ _))]
      ring
    · dsimp only
      by_cases h1 : tIn < now
      · rw [if_pos h1]
        by_cases h2 : max tIn (getStartOfDay now) < min now (getEndOfDay now)
        · rw [if_pos h2]
          rw [jsToFixed2_cent (cent_add (cent_add cent_zero (cent_clip_sum _ _ _))
            (cent_calculateHoursBetween _ _))]
          have hclip : todayClip (getStartOfDay now) (getEndOfDay now) (tIn, now) =
              calculateHoursBetween (max tIn (getStartOfDay now))
                (min now (getEndOfDay now)) := by
            unfold todayClip
            dsimp only
            rw [if_pos h2]
          rw [hclip]
          ring
        · rw [if_neg h2]
          rw [jsToFixed2_cent (cent_add cent_zero (cent_clip_sum _ _ _))]
          have hclip : todayClip (getStartOfDay now) (getEndOfDay now) (tIn, now) = 0 := by
            unfold todayClip
            dsimp only
            rw [if_neg h2]
          rw [hclip]
          ring
      · rw [if_neg h1]
        rw [jsToFixed2_cent (cent_add cent_zero (cent_clip_sum _ _ _))]
        rw [todayClip_of_now_le (not_lt.mp h1)]
        ring

/-! ## Claim theorems (first batch) -/

/-- C1: for the punch set [IN 2024-01-01T22:00Z, OUT 2024-01-02T02:00Z],
`getDailyTotals` returns the DayBucket 2024-01-02 ↦ 2.0 and the DayBucket
2024-01-01 ↦ 2.0 (descending), splitting the session at local midnight —
at every evaluation instant, since the punch set has no open session. -/
theorem claim1_midnight_split (now : ℤ) :
    getDailyTotals [⟨1704146400000, .pin⟩, ⟨1704160800000, .pout⟩] now =
      [(1704153600000, 2), (1704067200000, 2)] := by
  norm_num [getDailyTotals, sortPunches, List.insertionSort, List.orderedInsert, punchLE,
    dailyMapOf, dailyStep, dailyWalk, dailyWalkAux, walkBody, mapAdd, mapGet, mapSet,
    getStartOfDay_eq, getEndOfDay, fdiv_day, isSameDay_eq, msPerDay, msPerHour,
    calculateHoursBetween, jsToFixed2, ratFloor_eq_intFloor, fillDays, fillDaysAux,
    dailyBounds, List.getLast, entryGE]
  all_goals exact fun h => absurd h (by simp)

/-- C3: `calculateHoursWorkedToday` returns the sum, over all sessions of
§4.1's pairing (closed, or open with end = now), of the program's duration
of the intersection of [IN, OUT] with [start of today, end of today];
a session entirely outside today contributes 0; an open session that
started on a previous day contributes exactly the portion from today's
start to now. -/
theorem claim3_today_is_clipped_session_sum (ps : List Punch) (now : ℤ) :
    calculateHoursWorkedToday ps now = sessionTodaySum ps now ∧
    (∀ s e : ℤ, e ≤ getStartOfDay now ∨ getEndOfDay now ≤ s →
      todayClip (getStartOfDay now) (getEndOfDay now) (s, e) = 0) ∧
    (∀ tIn : ℤ, tIn < getStartOfDay now →
      todayClip (getStartOfDay now) (getEndOfDay now) (tIn, now) =
        if getStartOfDay now < now then
          calculateHoursBetween (getStartOfDay now) now
        else 0) := by
  refine ⟨today_eq_sessionSum ps now, ?_, ?_⟩
  · intro s e h
    unfold todayClip
    dsimp only
    rw [if_neg]
    rcases h with h | h
    · exact not_lt.mpr (le_trans (min_le_left _ _) (le_trans h (le_max_right _ _)))
    · exact not_lt.mpr (le_trans (min_le_right _ _) (le_trans h (le_max_left _ _)))
  · intro tIn h
    unfold todayClip
    dsimp only
    have ha : max tIn (getStartOfDay now) = getStartOfDay now :=
      max_eq_right (le_of_lt h)
    have hb : min now (getEndOfDay now) = now := min_eq_left (le_getEndOfDay now)
    rw [ha, hb]

/-- C3 witness at a concrete input: the inner implications discharged at
Scenario C's data (open session from the previous day, IN 2024-01-01T22:00Z,
now = 2024-01-02T02:00Z). -/
theorem claim3_witness :
    (calculateHoursWorkedToday [⟨1704146400000, .pin⟩] 1704160800000 =
        sessionTodaySum [⟨1704146400000, .pin⟩] 1704160800000) ∧
    todayClip (getStartOfDay 1704160800000) (getEndOfDay 1704160800000)
        (1704000000000, 1704066400000) = 0 ∧
    todayClip (getStartOfDay 1704160800000) (getEndOfDay 1704160800000)
        (1704146400000, 1704160800000) =
      calculateHoursBetween (getStartOfDay 1704160800000) 1704160800000 := by
  refine ⟨(claim3_today_is_clipped_session_sum [⟨1704146400000, .pin⟩] 1704160800000).1,
    (claim3_today_is_clipped_session_sum [⟨1704146400000, .pin⟩] 1704160800000).2.1
      1704000000000 1704066400000 (by decide), ?_⟩
  have h := (claim3_today_is_clipped_session_sum [⟨1704146400000, .pin⟩] 1704160800000).2.2
    1704146400000 (by decide)
  rw [h, if_pos (by decide : getStartOfDay 1704160800000 < 1704160800000)]

/-- C7 counterexample: three 14.4-second sessions inside 2024-01-01.  The
code rounds each session to 2 decimals before accumulating (each rounds
to 0.00), so it returns 0; the claim's read — exact accumulation with a
single final rounding — would give 0.01. -/
theorem claim7_cex :
    calculateHoursWorkedToday
        [⟨1704067200000, .pin⟩, ⟨1704067214400, .pout⟩,
         ⟨1704067228800, .pin⟩, ⟨1704067243200, .pout⟩,
         ⟨1704067257600, .pin⟩, ⟨1704067272000, .pout⟩] 1704147200000 = 0 ∧
    specTodayOnce
        [⟨1704067200000, .pin⟩, ⟨1704067214400, .pout⟩,
         ⟨1704067228800, .pin⟩, ⟨1704067243200, .pout⟩,
         ⟨1704067257600, .pin⟩, ⟨1704067272000, .pout⟩] 1704147200000 = 1 / 100 := by
  constructor
  · norm_num [calculateHoursWorkedToday, sortPunches, List.insertionSort, List.orderedInsert,
      punchLE, todayStep, getStartOfDay_eq, getEndOfDay, msPerHour, msPerDay,
      calculateHoursBetween, jsToFixed2, ratFloor_eq_intFloor]
  · norm_num [specTodayOnce, sessionsOf, pairStep, sortPunches, List.insertionSort,
      List.orderedInsert, punchLE, exactClip, getStartOfDay_eq, getEndOfDay, msPerHour,
      msPerDay, jsToFixed2, ratFloor_eq_intFloor]

/-- C7 as amended: each session's contribution is rounded to 2 decimal
places by `calculateHoursBetween` before it is accumulated, and the final
`toFixed(2)` is then a no-op (the per-session-rounded sum is already a
whole number of hundredths). -/
theorem claim7_amended_rounding_per_session (ps : List Punch) (now : ℤ) :
    calculateHoursWorkedToday ps now = jsToFixed2 (sessionTodaySum ps now) ∧
    jsToFixed2 (sessionTodaySum ps now) = sessionTodaySum ps now := by
  have hc := jsToFixed2_cent (cent_sessionTodaySum ps now)
  exact ⟨by rw [today_eq_sessionSum ps now, hc], hc⟩

/-- C8: a failed store read makes `loadPunches` return the empty list (no
error escapes, indistinguishable from "no data"), while a failed store
write makes `savePunch`, `deletePunch` and `updatePunch` fail to the
caller. -/
theorem claim8_read_soft_write_hard :
    (∀ e : Unit, loadPunches (.error e) = []) ∧
    (∀ (read : StoreRead) (p : Punch) (e : Unit),
      savePunch read (.error e) p = .error e) ∧
    (∀ (read : StoreRead) (ts : ℤ) (e : Unit),
      deletePunch read (.error e) ts = .error e) ∧
    (∀ (read : StoreRead) (old : ℤ) (q : Punch) (e : Unit),
      updatePunch read (.error e) old q = .error e) :=
  ⟨fun _ => rfl, fun _ _ _ => rfl, fun _ _ _ => rfl, fun _ _ _ _ => rfl⟩

theorem todayStep_fst_le (ds de : ℤ) (st : ℚ × Option ℤ) (p : Punch) :
    st.1 ≤ (todayStep ds de st p).1 := by
  rcases st with ⟨acc, o⟩
  rcases p with ⟨ts, ty⟩
  cases ty
  case pin => exact le_refl _
  case pout =>
    rcases o with _ | tIn
    · exact le_refl _
    · unfold todayStep
      dsimp only
      by_cases hle : ts ≤ tIn
      · rw [if_pos hle]
      · rw [if_neg hle]
        by_cases hlt : max tIn ds < min ts de
        · rw [if_pos hlt]
          have := calculateHoursBetween_nonneg (le_of_lt hlt)
          dsimp only
          linarith
        · rw [if_neg hlt]

theorem todayFold_fst_le (ds de : ℤ) :
    ∀ (l : List Punch) (st : ℚ × Option ℤ), st.1 ≤ (l.foldl (todayStep ds de) st).1 := by
  intro l
  induction l with
  | nil => intro st; exact le_refl _
  | cons p t ih =>
    intro st
    exact le_trans (todayStep_fst_le ds de st p) (ih (todayStep ds de st p))

/-- C10: `calculateHoursWorkedToday` never returns a negative number, for
every punch list (out-of-order, duplicated or inverted pairs included)
and every evaluation instant. -/
theorem claim10_today_nonneg (ps : List Punch) (now : ℤ) :
    0 ≤ calculateHoursWorkedToday ps now := by
  unfold calculateHoursWorkedToday
  split
  · norm_num
  · dsimp only
    apply jsToFixed2_nonneg
    have h0 : (0 : ℚ) ≤
        ((sortPunches ps).foldl (todayStep (getStartOfDay now) (getEndOfDay now))
          (0, none)).1 := by
      simpa using todayFold_fst_le (getStartOfDay now) (getEndOfDay now)
        (sortPunches ps) (0, none)
    rcases hfold : (sortPunches ps).foldl (todayStep (getStartOfDay now) (getEndOfDay now))
        (0, none) with ⟨acc, o⟩
    rw [hfold] at h0
    dsimp only at h0 ⊢
    rcases o with _ | tIn
    · exact h0
    · dsimp only
      by_cases h1 : tIn < now
      · rw [if_pos h1]
        by_cases h2 : max tIn (getStartOfDay now) < min now (getEndOfDay now)
        · rw [if_pos h2]
          have := calculateHoursBetween_nonneg (le_of_lt h2)
          linarith
        · rw [if_neg h2]
          exact h0
      · rw [if_neg h1]
        exact h0

/-! ## Claims C2, C5, C6, C9: counterexamples -/

/-- C2 counterexample: the non-empty punch set `[OUT 2024-01-01T22:00Z]`
(evaluated at that same instant) records no session hours, so
`getDailyTotals` returns the empty list — not one DayBucket (with
`hours = 0`) for 2024-01-01, the day of the earliest and latest punch, as
the claim requires. -/
theorem claim2_cex :
    getDailyTotals [⟨1704146400000, .pout⟩] 1704146400000 = [] ∧
    getStartOfDay 1704146400000 = 1704067200000 := by
  constructor
  · norm_num [getDailyTotals, sortPunches, List.insertionSort, List.orderedInsert, punchLE,
      dailyMapOf, dailyStep]
  · decide

/-- C5 counterexample: `[IN Mon Jan 1 09:00, IN Mon Jan 8 09:00, OUT
Jan 8 10:00]` — the first IN is superseded by the second, yet
`getWeeklyTotals` still gives its week (Sunday 2023-12-31) a bucket of
169 hours: within that week's group the discarded IN is an open session.
Removing the discarded IN changes the weekly output, so it does not
contribute zero to every aggregate. -/
theorem claim5_cex :
    getWeeklyTotals [⟨1704099600000, .pin⟩, ⟨1704704400000, .pin⟩, ⟨1704708000000, .pout⟩]
        1704708000000 = [(1704585600000, 1), (1703980800000, 169)] ∧
    getWeeklyTotals [⟨1704704400000, .pin⟩, ⟨1704708000000, .pout⟩]
        1704708000000 = [(1704585600000, 1)] := by
  constructor <;>
    (norm_num [getWeeklyTotals, groupStep, mapGet, mapSet, getStartOfWeek_eq,
      calculateTotalHours, sortPunches, List.insertionSort, List.orderedInsert, punchLE,
      totalStep, msPerHour, msPerDay, jsToFixed2, ratFloor_eq_intFloor, entryGE]
     <;> simp)

/-- C6 counterexample: two 14.4-second sessions on Monday 2024-01-01 (no
session crosses a midnight, let alone a Sunday-start week boundary).
Daily totals round each day's total to 0.00 (per-segment rounding gives
0.00 + 0.00), weekly totals round the exact 28 800 ms once, to 0.01 — the
sums differ. -/
theorem claim6_cex :
    ¬ (((getDailyTotals [⟨1704067200000, .pin⟩, ⟨1704067214400, .pout⟩,
            ⟨1704067228800, .pin⟩, ⟨1704067243200, .pout⟩] 1704147200000).map Prod.snd).sum =
        ((getWeeklyTotals [⟨1704067200000, .pin⟩, ⟨1704067214400, .pout⟩,
            ⟨1704067228800, .pin⟩, ⟨1704067243200, .pout⟩] 1704147200000).map Prod.snd).sum) := by
  norm_num [getDailyTotals, getWeeklyTotals, groupStep, sortPunches, List.insertionSort,
    List.orderedInsert, punchLE, dailyMapOf, dailyStep, dailyWalk, dailyWalkAux, walkBody,
    mapAdd, mapGet, mapSet, getStartOfDay_eq, getEndOfDay, getStartOfWeek_eq, fdiv_day,
    isSameDay_eq, msPerDay, msPerHour, calculateHoursBetween, calculateTotalHours, totalStep,
    jsToFixed2, ratFloor_eq_intFloor, fillDays, fillDaysAux, dailyBounds, List.getLast, entryGE]
  all_goals simp

/-- C9 counterexample: the punch set {IN@t, OUT@t} with a duplicated
timestamp.  In one input order the stable sort pairs IN with OUT (an
invalid pair, 0 hours); in the permuted order the OUT comes first and is
dropped, leaving the IN as an open session worth 1 hour at `now` = t+1h. -/
theorem claim9_cex :
    ([⟨0, .pin⟩, ⟨0, .pout⟩] : List Punch).Perm [⟨0, .pout⟩, ⟨0, .pin⟩] ∧
    calculateHoursWorkedToday [⟨0, .pin⟩, ⟨0, .pout⟩] 3600000 = 0 ∧
    calculateHoursWorkedToday [⟨0, .pout⟩, ⟨0, .pin⟩] 3600000 = 1 := by
  refine ⟨List.Perm.swap _ _ _, ?_, ?_⟩ <;>
    (norm_num [calculateHoursWorkedToday, sortPunches, List.insertionSort, List.orderedInsert,
      punchLE, todayStep, getStartOfDay_eq, getEndOfDay, msPerHour, msPerDay,
      calculateHoursBetween, jsToFixed2, ratFloor_eq_intFloor]
     <;> simp)

/-! ## Claim C4: an invalid pair contributes zero and is consumed -/

/-- `totalStep` with the validity guard the other scans have: an OUT at or
before its paired IN contributes exactly 0 ms and clears the slot. -/
def totalStepG (st : ℤ × Option ℤ) (p : Punch) : ℤ × Option ℤ :=
  match p.type with
  | .pin => (st.1, some p.timestamp)
  | .pout =>
    match st.2 with
    | none => st
    | some tIn =>
      if p.timestamp ≤ tIn then (st.1, none)
      else (st.1 + (p.timestamp - tIn), none)

/-- On a list whose punches all come at or after the open slot's IN, the
unguarded millisecond scan of `calculateTotalHours` agrees with the
guarded one: every pairing it consumes satisfies IN ≤ OUT, so a pairing
with OUT ≤ IN adds exactly `OUT - IN = 0`. -/
theorem totalFold_eq_guarded :
    ∀ (l : List Punch), l.Sorted punchLE →
      ∀ (o : Option ℤ), (∀ t, o = some t → ∀ p ∈ l, t ≤ p.timestamp) →
      ∀ ms : ℤ, l.foldl totalStep (ms, o) = l.foldl totalStepG (ms, o) := by
  intro l
  induction l with
  | nil => intro _ o _ ms; rfl
  | cons p t ih =>
    intro hs o ho ms
    have hst : t.Sorted punchLE := hs.of_cons
    have hple : ∀ q ∈ t, p.timestamp ≤ q.timestamp := by
      intro q hq
      exact List.rel_of_sorted_cons hs q hq
    rcases p with ⟨ts, ty⟩
    cases ty
    case pin =>
      simp only [List.foldl_cons, totalStep, totalStepG]
      exact ih hst (some ts) (by
        intro u hu q hq
        cases hu
        exact hple q hq) ms
    case pout =>
      rcases o with _ | tIn
      · simp only [List.foldl_cons, totalStep, totalStepG]
        exact ih hst none (by intro u hu; cases hu) ms
      · have htle : tIn ≤ ts := ho tIn rfl ⟨ts, .pout⟩ (List.mem_cons_self _ _)
        simp only [List.foldl_cons, totalStep, totalStepG]
        by_cases hle : ts ≤ tIn
        · rw [if_pos hle]
          have : ts - tIn = 0 := by omega
          rw [this, add_zero]
          exact ih hst none (by intro u hu; cases hu) ms
        · rw [if_neg hle]
          exact ih hst none (by intro u hu; cases hu) _

/-- C4: an OUT punch paired with an open IN at or after it contributes
exactly zero to each aggregate's accumulator and still consumes the
pairing (the slot is cleared): literally so in the scans of
`calculateHoursWorkedToday` and `getDailyTotals` and in the spec's
pairing; in `calculateTotalHours` (the weekly path, which adds `OUT - IN`
unguarded) because that scan runs on a sorted list, where it coincides
with the guarded scan `totalStepG`. -/
theorem claim4_invalid_pair_zero_consumed (p : Punch) (tIn : ℤ)
    (hty : p.type = .pout) (hle : p.timestamp ≤ tIn) :
    (∀ (ds de : ℤ) (acc : ℚ), todayStep ds de (acc, some tIn) p = (acc, none)) ∧
    (∀ m : List (ℤ × ℚ), dailyStep (m, some tIn) p = (m, none)) ∧
    (∀ cs : List (ℤ × ℤ), pairStep (cs, some tIn) p = (cs, none)) ∧
    (∀ ms : ℤ, totalStepG (ms, some tIn) p = (ms, none)) ∧
    (∀ (l : List Punch), l.Sorted punchLE → ∀ ms : ℤ,
      l.foldl totalStep (ms, none) = l.foldl totalStepG (ms, none)) := by
  rcases p with ⟨ts, ty⟩
  cases hty
  refine ⟨?_, ?_, ?_, ?_, ?_⟩
  · intro ds de acc
    simp only [todayStep, if_pos hle]
  · intro m
    simp only [dailyStep, if_pos hle]
  · intro cs
    simp only [pairStep, if_pos hle]
  · intro ms
    simp only [totalStepG, if_pos hle]
  · intro l hs ms
    exact totalFold_eq_guarded l hs none (by intro u hu; cases hu) ms

/-- C4 witness: the conclusions at the concrete invalid pair IN@5, OUT@5
(an OUT paired at its IN's timestamp) and the concrete sorted list
`[IN 1, OUT 0]`. -/
theorem claim4_witness :
    (∀ (ds de : ℤ) (acc : ℚ),
      todayStep ds de (acc, some 5) ⟨5, .pout⟩ = (acc, none)) ∧
    (∀ m : List (ℤ × ℚ), dailyStep (m, some 5) ⟨5, .pout⟩ = (m, none)) ∧
    (∀ cs : List (ℤ × ℤ), pairStep (cs, some 5) ⟨5, .pout⟩ = (cs, none)) ∧
    (∀ ms : ℤ, totalStepG (ms, some 5) ⟨5, .pout⟩ = (ms, none)) ∧
    (∀ (l : List Punch), l.Sorted punchLE → ∀ ms : ℤ,
      l.foldl totalStep (ms, none) = l.foldl totalStepG (ms, none)) :=
  claim4_invalid_pair_zero_consumed ⟨5, .pout⟩ 5 rfl (le_refl 5)

/-! ## Claim C5: a superseded IN in the sorted-scan aggregates -/

/-- Any scan whose step overwrites the open slot on IN gives the same
result from `pA :: pB :: t` (both IN) as from `pB :: t`, whatever the
incoming slot: the superseded `pA` is discarded without touching the
accumulator. -/
theorem foldl_overwrite {α : Type} (step : α × Option ℤ → Punch → α × Option ℤ)
    (hin : ∀ (a : α) (o : Option ℤ) (p : Punch), p.type = .pin →
      step (a, o) p = (a, some p.timestamp))
    (pA pB : Punch) (hA : pA.type = .pin) (hB : pB.type = .pin)
    (t : List Punch) (s s' : α × Option ℤ) (hss : s.1 = s'.1) :
    (pA :: pB :: t).foldl step s = (pB :: t).foldl step s' := by
  simp only [List.foldl_cons]
  rw [show step s pA = (s.1, some pA.timestamp) from hin s.1 s.2 pA hA,
    hin s.1 (some pA.timestamp) pB hB,
    show step s' pB = (s'.1, some pB.timestamp) from hin s'.1 s'.2 pB hB, hss]

theorem sortPunches_ne_nil {ps : List Punch} (h : sortPunches ps ≠ []) : ps ≠ [] := by
  intro hnil
  subst hnil
  exact h rfl

/-- C5 as amended: when the sorted punch sequence contains two
consecutive IN punches, dropping the earlier one changes neither
`calculateHoursWorkedToday`, nor the hours `getDailyTotals` attributes to
any day (its internal daily map, dangling slot included), nor the spec's
session pairing: the superseded IN is never paired and contributes zero
hours there.  (`getWeeklyTotals` is exempted: `claim5_cex` shows a
superseded IN in an earlier week group still contributes as that group's
open session.) -/
theorem claim5_amended_superseded_in (ps ps' : List Punch) (now : ℤ)
    (pA pB : Punch) (l1 l2 : List Punch) (hA : pA.type = .pin) (hB : pB.type = .pin)
    (hs : sortPunches ps = l1 ++ pA :: pB :: l2)
    (hs' : sortPunches ps' = l1 ++ pB :: l2) :
    calculateHoursWorkedToday ps now = calculateHoursWorkedToday ps' now ∧
    dailyMapOf (sortPunches ps) now = dailyMapOf (sortPunches ps') now ∧
    sessionsOf (sortPunches ps) = sessionsOf (sortPunches ps') := by
  have hne : ps ≠ [] := sortPunches_ne_nil (by rw [hs]; exact List.append_ne_nil_of_right_ne_nil _ (by simp))
  have hne' : ps' ≠ [] := sortPunches_ne_nil (by rw [hs']; exact List.append_ne_nil_of_right_ne_nil _ (by simp))
  have hfold : ∀ {α : Type} (step : α × Option ℤ → Punch → α × Option ℤ),
      (∀ (a : α) (o : Option ℤ) (p : Punch), p.type = .pin →
        step (a, o) p = (a, some p.timestamp)) →
      ∀ init : α × Option ℤ,
        (sortPunches ps).foldl step init = (sortPunches ps').foldl step init := by
    intro α step hstep init
    rw [hs, hs', List.foldl_append, List.foldl_append]
    exact foldl_overwrite step hstep pA pB hA hB l2 _ _ rfl
  refine ⟨?_, ?_, ?_⟩
  · unfold calculateHoursWorkedToday
    rw [if_neg hne, if_neg hne']
    dsimp only
    rw [hfold (todayStep (getStartOfDay now) (getEndOfDay now))
      (by intro a o p hp; rcases p with ⟨ts, ty⟩; cases hp; rfl) (0, none)]
  · unfold dailyMapOf
    rw [hfold dailyStep
      (by intro a o p hp; rcases p with ⟨ts, ty⟩; cases hp; rfl) ([], none)]
  · unfold sessionsOf
    rw [hfold pairStep
      (by intro a o p hp; rcases p with ⟨ts, ty⟩; cases hp; rfl) ([], none)]

/-- Two sorted lists that are permutations of each other and have
pairwise-distinct keys are equal. -/
theorem perm_sorted_nodupkey_eq {α : Type} (key : α → ℤ) (r : α → α → Prop)
    (hanti : ∀ a b, r a b → r b a → key a = key b) :
    ∀ (l1 l2 : List α), l1.Perm l2 → l1.Sorted r → l2.Sorted r →
      (l1.map key).Nodup → l1 = l2 := by
  intro l1
  induction l1 with
  | nil =>
    intro l2 hp _ _ _
    exact (List.Perm.eq_nil hp.symm).symm
  | cons a t1 ih =>
    intro l2 hp hs1 hs2 hnd
    cases l2 with
    | nil => exact absurd (List.Perm.eq_nil hp) (by simp)
    | cons b t2 =>
      by_cases hab : a = b
      · subst hab
        rw [ih t2 hp.cons_inv hs1.of_cons hs2.of_cons (by
          rw [List.map_cons, List.nodup_cons] at hnd
          exact hnd.2)]
      · have ha2 : a ∈ t2 := by
          rcases List.mem_cons.mp (hp.subset (List.mem_cons_self a t1)) with h | h
          · exact absurd h hab
          · exact h
        have hb1 : b ∈ t1 := by
          rcases List.mem_cons.mp (hp.symm.subset (List.mem_cons_self b t2)) with h | h
          · exact absurd h.symm hab
          · exact h
        have hk : key a = key b :=
          hanti a b (List.rel_of_sorted_cons hs1 b hb1) (List.rel_of_sorted_cons hs2 a ha2)
        rw [List.map_cons, List.nodup_cons] at hnd
        exact absurd (hk ▸ List.mem_map_of_mem key hb1) hnd.1

/-! ## Day arithmetic for the daily-range claim -/

theorem getStartOfDay_mono {s t : ℤ} (h : s ≤ t) : getStartOfDay s ≤ getStartOfDay t := by
  rw [getStartOfDay_eq, getStartOfDay_eq]
  omega

theorem getStartOfDay_idem (t : ℤ) : getStartOfDay (getStartOfDay t) = getStartOfDay t := by
  rw [getStartOfDay_eq, getStartOfDay_eq]
  omega

theorem getStartOfDay_add_day (t : ℤ) :
    getStartOfDay (getStartOfDay t + msPerDay) = getStartOfDay t + msPerDay := by
  rw [getStartOfDay_eq, getStartOfDay_eq]
  norm_num [msPerDay]
  omega

/-- The consecutive day starts `c, c + 1 day, …`, `n` of them. -/
def dayRangeAsc (c : ℤ) : ℕ → List ℤ
  | 0 => []
  | n + 1 => c :: dayRangeAsc (c + msPerDay) n

/-- The day starts of the inclusive range `[c, e]`, newest first — the
shape claim C2 asserts for `getDailyTotals`' dates. -/
def dayRangeDesc (c e : ℤ) : List ℤ :=
  (dayRangeAsc c (((e - c) / 86400000).toNat + 1)).reverse

theorem dayRangeAsc_mem_ge : ∀ (n : ℕ) (c k : ℤ), k ∈ dayRangeAsc c n → c ≤ k := by
  intro n
  induction n with
  | zero => intro c k h; simp [dayRangeAsc] at h
  | succ n ih =>
    intro c k h
    rcases List.mem_cons.mp h with h | h
    · omega
    · have := ih (c + msPerDay) k h
      simp only [msPerDay] at this
      omega

theorem dayRangeAsc_sorted : ∀ (n : ℕ) (c : ℤ),
    (dayRangeAsc c n).Pairwise (fun a b => a < b) := by
  intro n
  induction n with
  | zero => intro c; simp [dayRangeAsc]
  | succ n ih =>
    intro c
    refine List.Pairwise.cons ?_ (ih (c + msPerDay))
    intro k hk
    have := dayRangeAsc_mem_ge n (c + msPerDay) k hk
    simp only [msPerDay] at this
    omega

theorem dayRangeAsc_nodup (n : ℕ) (c : ℤ) : (dayRangeAsc c n).Nodup :=
  (dayRangeAsc_sorted n c).imp ne_of_lt

/-- Membership in the day range: exactly the aligned days of `[c, e]`. -/
theorem mem_dayRangeAsc_iff :
    ∀ (n : ℕ) (c e k : ℤ), c = getStartOfDay c → e = getStartOfDay e → c ≤ e →
      ((e - c) / 86400000).toNat = n →
      (k ∈ dayRangeAsc c (n + 1) ↔
        (k = getStartOfDay k ∧ c ≤ k ∧ k ≤ e)) := by
  intro n
  induction n with
  | zero =>
    intro c e k hc he hce hn
    have hec : e = c := by
      rw [getStartOfDay_eq] at hc he
      omega
    rw [show dayRangeAsc c 1 = [c] from rfl, List.mem_singleton]
    constructor
    · rintro rfl
      exact ⟨hc, le_refl _, by omega⟩
    · rintro ⟨h1, h2, h3⟩
      omega
  | succ n ih =>
    intro c e k hc he hce hn
    have hcd : c + msPerDay ≤ e := by
      rw [getStartOfDay_eq] at hc he
      simp only [msPerDay]
      omega
    have hcd' : c + msPerDay = getStartOfDay (c + msPerDay) := by
      rw [getStartOfDay_eq] at hc ⊢
      simp only [msPerDay]
      omega
    have hn' : ((e - (c + msPerDay)) / 86400000).toNat = n := by
      rw [getStartOfDay_eq] at hc he
      simp only [msPerDay]
      omega
    rw [show dayRangeAsc c (n + 1 + 1) = c :: dayRangeAsc (c + msPerDay) (n + 1) from rfl]
    rw [List.mem_cons]
    rw [ih (c + msPerDay) e k hcd' he hcd hn']
    constructor
    · rintro (rfl | ⟨h1, h2, h3⟩)
      · exact ⟨hc, le_refl _, hce⟩
      · refine ⟨h1, ?_, h3⟩
        simp only [msPerDay] at h2
        omega
    · rintro ⟨h1, h2, h3⟩
      by_cases hk : k = c
      · exact Or.inl hk
      · refine Or.inr ⟨h1, ?_, h3⟩
        rw [getStartOfDay_eq] at hc h1
        simp only [msPerDay]
        omega

theorem dayRangeDesc_sorted (c e : ℤ) :
    (dayRangeDesc c e).Pairwise (fun a b : ℤ => b ≤ a) := by
  unfold dayRangeDesc
  rw [List.pairwise_reverse]
  exact (dayRangeAsc_sorted _ c).imp le_of_lt

theorem dayRangeDesc_nodup (c e : ℤ) : (dayRangeDesc c e).Nodup :=
  List.nodup_reverse.mpr (dayRangeAsc_nodup _ c)

theorem mem_dayRangeDesc_iff {c e : ℤ} (hc : c = getStartOfDay c)
    (he : e = getStartOfDay e) (hce : c ≤ e) (k : ℤ) :
    k ∈ dayRangeDesc c e ↔ (k = getStartOfDay k ∧ c ≤ k ∧ k ≤ e) := by
  unfold dayRangeDesc
  rw [List.mem_reverse]
  exact mem_dayRangeAsc_iff _ c e k hc he hce rfl

/-! ## JavaScript Map laws -/

theorem mapGet_set_self {β : Type} (m : List (ℤ × β)) (k : ℤ) (v : β) :
    mapGet (mapSet m k v) k = some v := by
  induction m with
  | nil => simp [mapGet, mapSet]
  | cons e rest ih =>
    by_cases h : e.1 = k
    · simp [mapSet, h, mapGet]
    · simp [mapSet, h, mapGet, ih]

theorem mapGet_set_ne {β : Type} (m : List (ℤ × β)) (k : ℤ) (v : β) (k' : ℤ)
    (h : k ≠ k') : mapGet (mapSet m k v) k' = mapGet m k' := by
  induction m with
  | nil => simp [mapGet, mapSet, h]
  | cons e rest ih =>
    rcases e with ⟨ek, ev⟩
    by_cases he : ek = k
    · subst he
      simp [mapSet, mapGet, h]
    · simp [mapSet, mapGet, he, ih]

theorem keys_mapSet {β : Type} (m : List (ℤ × β)) (k : ℤ) (v : β) :
    (mapSet m k v).map Prod.fst =
      if k ∈ m.map Prod.fst then m.map Prod.fst else m.map Prod.fst ++ [k] := by
  induction m with
  | nil => simp [mapSet]
  | cons e rest ih =>
    rcases e with ⟨ek, ev⟩
    by_cases he : ek = k
    · subst he
      simp [mapSet]
    · simp only [mapSet, if_neg he, List.map_cons, ih]
      by_cases hk : k ∈ rest.map Prod.fst
      · rw [if_pos hk, if_pos (by simp [hk])]
      · rw [if_neg hk, if_neg (by
          simp only [List.mem_cons]
          rintro (h1 | h1)
          · exact he h1.symm
          · exact hk h1)]
        simp

theorem nodupkeys_mapSet {β : Type} (m : List (ℤ × β)) (k : ℤ) (v : β)
    (h : (m.map Prod.fst).Nodup) : ((mapSet m k v).map Prod.fst).Nodup := by
  rw [keys_mapSet]
  by_cases hk : k ∈ m.map Prod.fst
  · rw [if_pos hk]; exact h
  · rw [if_neg hk]
    rw [List.nodup_append]
    exact ⟨h, List.nodup_singleton k, by simpa using hk⟩

theorem mapGet_eq_none_iff {β : Type} (m : List (ℤ × β)) (k : ℤ) :
    mapGet m k = none ↔ k ∉ m.map Prod.fst := by
  induction m with
  | nil => simp [mapGet]
  | cons e rest ih =>
    by_cases he : e.1 = k
    · simp [mapGet, if_pos he, he]
    · simp only [mapGet, if_neg he, List.map_cons, List.mem_cons, ih]
      constructor
      · intro h hmem
        rcases hmem with hmem | hmem
        · exact he hmem.symm
        · exact h hmem
      · intro h hmem
        exact h (Or.inr hmem)

theorem mapGet_some_iff_mem {β : Type} :
    ∀ (m : List (ℤ × β)), (m.map Prod.fst).Nodup → ∀ (k : ℤ) (v : β),
      (mapGet m k = some v ↔ (k, v) ∈ m) := by
  intro m
  induction m with
  | nil => intro _ k v; simp [mapGet]
  | cons e rest ih =>
    intro hm k v
    rcases e with ⟨ek, ev⟩
    rw [List.map_cons, List.nodup_cons] at hm
    by_cases he : ek = k
    · subst he
      constructor
      · intro h
        have hv : ev = v := by simpa [mapGet] using h
        subst hv
        exact List.mem_cons_self _ _
      · intro h
        rcases List.mem_cons.mp h with h1 | h1
        · have hv : v = ev := (Prod.mk.injEq _ _ _ _ ▸ h1).2
          subst hv
          simp [mapGet]
        · exact absurd (List.mem_map_of_mem Prod.fst h1) hm.1
    · simp only [mapGet, if_neg he, List.mem_cons, ih hm.2 k v]
      constructor
      · intro h
        exact Or.inr h
      · rintro (h | h)
        · exact absurd (congrArg Prod.fst h).symm he
        · exact h


/-! ## Keys of the daily hours map -/

theorem mem_keys_mapSet {β : Type} {m : List (ℤ × β)} {k : ℤ} {v : β} {q : ℤ}
    (h : q ∈ (mapSet m k v).map Prod.fst) : q ∈ m.map Prod.fst ∨ q = k := by
  rw [keys_mapSet] at h
  by_cases hk : k ∈ m.map Prod.fst
  · rw [if_pos hk] at h
    exact Or.inl h
  · rw [if_neg hk] at h
    rcases List.mem_append.mp h with h | h
    · exact Or.inl h
    · exact Or.inr (List.mem_singleton.mp h)

theorem mem_keys_mapAdd {m : List (ℤ × ℚ)} {k : ℤ} {v : ℚ} {q : ℤ}
    (h : q ∈ (mapAdd m k v).map Prod.fst) : q ∈ m.map Prod.fst ∨ q = k :=
  mem_keys_mapSet h

/-- The predicate claim C2 tracks: `k` is the start of a day lying in the
inclusive day range `[lo, hi]`. -/
def DayKeyIn (lo hi k : ℤ) : Prop := k = getStartOfDay k ∧ lo ≤ k ∧ k ≤ hi

theorem walkBody_keys {tOut cursor : ℤ} {m : List (ℤ × ℚ)} {q : ℤ}
    (h : q ∈ (walkBody tOut cursor m).map Prod.fst) :
    q ∈ m.map Prod.fst ∨ q = getStartOfDay cursor := by
  unfold walkBody at h
  dsimp only at h
  split at h <;> split at h
  · exact mem_keys_mapAdd h
  · exact Or.inl h
  · exact mem_keys_mapAdd h
  · exact Or.inl h

theorem dailyWalkAux_keys (tIn tOut : ℤ) :
    ∀ (fuel : ℕ) (cursor : ℤ) (m : List (ℤ × ℚ)) (q : ℤ),
      q ∈ ((dailyWalkAux tIn tOut fuel cursor m).map Prod.fst) →
        q ∈ m.map Prod.fst ∨ DayKeyIn (getStartOfDay cursor) (getStartOfDay tOut) q := by
  intro fuel
  induction fuel with
  | zero => intro cursor m q h; exact Or.inl h
  | succ fuel ih =>
    intro cursor m q h
    rw [dailyWalkAux_succ] at h
    by_cases hg : cursor < tOut
    · rw [if_pos hg] at h
      have hcle : getStartOfDay cursor ≤ getStartOfDay tOut :=
        getStartOfDay_mono (le_of_lt hg)
      have hbody : ∀ q, q ∈ ((walkBody tOut cursor m).map Prod.fst) →
          q ∈ m.map Prod.fst ∨
            DayKeyIn (getStartOfDay cursor) (getStartOfDay tOut) q := by
        intro q hq
        rcases walkBody_keys hq with hq | rfl
        · exact Or.inl hq
        · exact Or.inr ⟨(getStartOfDay_idem cursor).symm, le_refl _, hcle⟩
      split at h
      · split at h
        · split at h
          · exact hbody q h
          · rcases mem_keys_mapSet h with h | rfl
            · exact hbody q h
            · exact Or.inr ⟨(getStartOfDay_idem tOut).symm, hcle, le_refl _⟩
        · exact hbody q h
      · rcases ih (getStartOfDay cursor + msPerDay) (walkBody tOut cursor m) q h with h | hk
        · exact hbody q h
        · rcases hk with ⟨ha, hlo, hhi⟩
          refine Or.inr ⟨ha, ?_, hhi⟩
          rw [getStartOfDay_add_day] at hlo
          simp only [msPerDay] at hlo
          omega
    · rw [if_neg hg] at h
      exact Or.inl h

theorem openWalkAux_keys (tNow : ℤ) :
    ∀ (fuel : ℕ) (cursor : ℤ) (m : List (ℤ × ℚ)) (q : ℤ),
      q ∈ ((openWalkAux tNow fuel cursor m).map Prod.fst) →
        q ∈ m.map Prod.fst ∨ DayKeyIn (getStartOfDay cursor) (getStartOfDay tNow) q := by
  intro fuel
  induction fuel with
  | zero => intro cursor m q h; exact Or.inl h
  | succ fuel ih =>
    intro cursor m q h
    rw [openWalkAux_succ] at h
    by_cases hg : cursor < tNow
    · rw [if_pos hg] at h
      have hcle : getStartOfDay cursor ≤ getStartOfDay tNow :=
        getStartOfDay_mono (le_of_lt hg)
      have hbody : ∀ q, q ∈ ((walkBody tNow cursor m).map Prod.fst) →
          q ∈ m.map Prod.fst ∨
            DayKeyIn (getStartOfDay cursor) (getStartOfDay tNow) q := by
        intro q hq
        rcases walkBody_keys hq with hq | rfl
        · exact Or.inl hq
        · exact Or.inr ⟨(getStartOfDay_idem cursor).symm, le_refl _, hcle⟩
      split at h
      · exact hbody q h
      · rcases ih (getStartOfDay cursor + msPerDay) (walkBody tNow cursor m) q h with h | hk
        · exact hbody q h
        · rcases hk with ⟨ha, hlo, hhi⟩
          refine Or.inr ⟨ha, ?_, hhi⟩
          rw [getStartOfDay_add_day] at hlo
          simp only [msPerDay] at hlo
          omega
    · rw [if_neg hg] at h
      exact Or.inl h

theorem dailyWalk_keys {tIn tOut : ℤ} {m : List (ℤ × ℚ)} {q : ℤ}
    (h : q ∈ ((dailyWalk tIn tOut m).map Prod.fst)) :
    q ∈ m.map Prod.fst ∨ DayKeyIn (getStartOfDay tIn) (getStartOfDay tOut) q :=
  dailyWalkAux_keys tIn tOut _ tIn m q h

theorem openWalk_keys {tNow tIn : ℤ} {m : List (ℤ × ℚ)} {q : ℤ}
    (h : q ∈ ((openWalk tNow tIn m).map Prod.fst)) :
    q ∈ m.map Prod.fst ∨ DayKeyIn (getStartOfDay tIn) (getStartOfDay tNow) q :=
  openWalkAux_keys tNow _ tIn m q h

theorem walkBody_keys_nodup (tOut cursor : ℤ) (m : List (ℤ × ℚ))
    (h : (m.map Prod.fst).Nodup) : ((walkBody tOut cursor m).map Prod.fst).Nodup := by
  unfold walkBody
  dsimp only
  split <;> split
  · exact nodupkeys_mapSet _ _ _ h
  · exact h
  · exact nodupkeys_mapSet _ _ _ h
  · exact h

theorem dailyWalkAux_keys_nodup (tIn tOut : ℤ) :
    ∀ (fuel : ℕ) (cursor : ℤ) (m : List (ℤ × ℚ)),
      (m.map Prod.fst).Nodup → ((dailyWalkAux tIn tOut fuel cursor m).map Prod.fst).Nodup := by
  intro fuel
  induction fuel with
  | zero => intro cursor m h; exact h
  | succ fuel ih =>
    intro cursor m h
    rw [dailyWalkAux_succ]
    have hb := walkBody_keys_nodup tOut cursor m h
    split
    · split
      · split
        · split
          · exact hb
          · exact nodupkeys_mapSet _ _ _ hb
        · exact hb
      · exact ih _ _ hb
    · exact h

theorem openWalkAux_keys_nodup (tNow : ℤ) :
    ∀ (fuel : ℕ) (cursor : ℤ) (m : List (ℤ × ℚ)),
      (m.map Prod.fst).Nodup → ((openWalkAux tNow fuel cursor m).map Prod.fst).Nodup := by
  intro fuel
  induction fuel with
  | zero => intro cursor m h; exact h
  | succ fuel ih =>
    intro cursor m h
    rw [openWalkAux_succ]
    have hb := walkBody_keys_nodup tNow cursor m h
    split
    · split
      · exact hb
      · exact ih _ _ hb
    · exact h

theorem dailyStep_keys_nodup (st : List (ℤ × ℚ) × Option ℤ) (p : Punch)
    (h : (st.1.map Prod.fst).Nodup) : (((dailyStep st p).1).map Prod.fst).Nodup := by
  rcases st with ⟨m, o⟩
  rcases p with ⟨ts, ty⟩
  cases ty
  case pin => exact h
  case pout =>
    rcases o with _ | tIn
    · exact h
    · by_cases hle : ts ≤ tIn
      · simpa [dailyStep, hle] using h
      · simp only [dailyStep, if_neg hle]
        exact dailyWalkAux_keys_nodup tIn ts _ tIn m h

theorem dailyFold_keys_nodup :
    ∀ (l : List Punch) (st : List (ℤ × ℚ) × Option ℤ),
      (st.1.map Prod.fst).Nodup → (((l.foldl dailyStep st).1).map Prod.fst).Nodup := by
  intro l
  induction l with
  | nil => intro st h; exact h
  | cons p t ih =>
    intro st h
    exact ih (dailyStep st p) (dailyStep_keys_nodup st p h)

theorem fillDaysAux_keys_nodup (e : ℤ) :
    ∀ (fuel : ℕ) (cursor : ℤ) (m : List (ℤ × ℚ)),
      (m.map Prod.fst).Nodup → ((fillDaysAux e fuel cursor m).map Prod.fst).Nodup := by
  intro fuel
  induction fuel with
  | zero => intro cursor m h; exact h
  | succ fuel ih =>
    intro cursor m h
    rw [fillDaysAux_succ]
    split
    · apply ih
      split
      · exact h
      · exact nodupkeys_mapSet _ _ _ h
    · exact h

/-- What the gap-filling loop stores: every aligned day of `[c, e]`
missing from the map is 0, everything else is untouched. -/
theorem fillDaysAux_get (e : ℤ) :
    ∀ (fuel : ℕ) (c : ℤ) (m : List (ℤ × ℚ)),
      c = getStartOfDay c →
      (c ≤ e → ((e - c) / 86400000).toNat < fuel) →
      ∀ k, mapGet (fillDaysAux e fuel c m) k =
        if c ≤ k ∧ k ≤ e ∧ k = getStartOfDay k ∧ mapGet m k = none then some 0
        else mapGet m k := by
  intro fuel
  induction fuel with
  | zero =>
    intro c m hc hfuel k
    have hce : ¬ c ≤ e := fun h => Nat.not_lt_zero _ (hfuel h)
    rw [show fillDaysAux e 0 c m = m from rfl]
    rw [if_neg]
    rintro ⟨h1, h2, _, _⟩
    exact hce (le_trans h1 h2)
  | succ fuel ih =>
    intro c m hc hfuel k
    rw [fillDaysAux_succ]
    by_cases hce : c ≤ e
    · rw [if_pos hce]
      have hc' : c + msPerDay = getStartOfDay (c + msPerDay) := by
        rw [getStartOfDay_eq] at hc ⊢
        simp only [msPerDay]
        omega
      have hfuel' : c + msPerDay ≤ e → ((e - (c + msPerDay)) / 86400000).toNat < fuel := by
        intro hh
        have := hfuel hce
        simp only [msPerDay] at hh ⊢
        omega
      rw [ih (c + msPerDay) _ hc' hfuel' k]
      by_cases hkc : k = c
      · subst hkc
        rw [if_neg (by
          rintro ⟨h1, _, _, _⟩
          simp only [msPerDay] at h1
          omega)]
        by_cases hmc : (mapGet m k).isSome
        · rw [if_pos hmc, if_neg (by
            rintro ⟨_, _, _, hnone⟩
            rw [hnone] at hmc
            simp at hmc)]
        · rw [if_neg hmc, mapGet_set_self,
            if_pos ⟨le_refl k, hce, hc, Option.not_isSome_iff_eq_none.mp hmc⟩]
      · have hm1k : mapGet (if (mapGet m c).isSome then m else mapSet m c 0) k =
            mapGet m k := by
          split
          · rfl
          · exact mapGet_set_ne m c 0 k (fun hk => hkc hk.symm)
        rw [hm1k]
        by_cases hcond : c ≤ k ∧ k ≤ e ∧ k = getStartOfDay k ∧ mapGet m k = none
        · rw [if_pos (by
            obtain ⟨h1, h2, h3, h4⟩ := hcond
            refine ⟨?_, h2, h3, h4⟩
            rw [getStartOfDay_eq] at hc h3
            simp only [msPerDay]
            omega), if_pos hcond]
        · rw [if_neg (by
            rintro ⟨h1, h2, h3, h4⟩
            exact hcond ⟨by simp only [msPerDay] at h1; omega, h2, h3, h4⟩),
            if_neg hcond]
    · rw [if_neg hce]
      rw [if_neg (by
        rintro ⟨h1, h2, _, _⟩
        exact hce (le_trans h1 h2))]

theorem fillDays_get (e c : ℤ) (m : List (ℤ × ℚ)) (hc : c = getStartOfDay c) (k : ℤ) :
    mapGet (fillDays e c m) k =
      if c ≤ k ∧ k ≤ e ∧ k = getStartOfDay k ∧ mapGet m k = none then some 0
      else mapGet m k := by
  unfold fillDays
  rw [fdiv_day, fdiv_day]
  apply fillDaysAux_get e _ c m hc
  intro hce
  rw [getStartOfDay_eq] at hc
  omega

theorem fillDays_keys_nodup (e c : ℤ) (m : List (ℤ × ℚ))
    (h : (m.map Prod.fst).Nodup) : ((fillDays e c m).map Prod.fst).Nodup :=
  fillDaysAux_keys_nodup e _ c m h

/-- Key bound for the whole pairing scan of `getDailyTotals`: with all
punches (and any open IN) inside `[lo, hi]`, every key the scan records is
an aligned day of `[day of lo, day of hi]`, and so is any dangling IN's
timestamp bound. -/
theorem dailyFold_bound :
    ∀ (l : List Punch) (m : List (ℤ × ℚ)) (o : Option ℤ) (lo hi : ℤ),
      (∀ p ∈ l, lo ≤ p.timestamp ∧ p.timestamp ≤ hi) →
      (∀ u, o = some u → lo ≤ u ∧ u ≤ hi) →
      (∀ q ∈ m.map Prod.fst, DayKeyIn (getStartOfDay lo) (getStartOfDay hi) q) →
      (∀ q ∈ ((l.foldl dailyStep (m, o)).1.map Prod.fst),
        DayKeyIn (getStartOfDay lo) (getStartOfDay hi) q) ∧
      (∀ u, (l.foldl dailyStep (m, o)).2 = some u → lo ≤ u ∧ u ≤ hi) := by
  intro l
  induction l with
  | nil => intro m o lo hi _ ho hm; exact ⟨hm, ho⟩
  | cons p t ih =>
    intro m o lo hi hl ho hm
    rw [List.foldl_cons]
    have hp := hl p (List.mem_cons_self p t)
    have hl' : ∀ q ∈ t, lo ≤ q.timestamp ∧ q.timestamp ≤ hi :=
      fun q hq => hl q (List.mem_cons_of_mem p hq)
    rcases p with ⟨ts, ty⟩
    cases ty
    case pin =>
      exact ih m (some ts) lo hi hl'
        (by
          intro u hu
          injection hu with hu
          subst hu
          exact hp) hm
    case pout =>
      rcases o with _ | tIn
      · exact ih m none lo hi hl' (by intro u hu; cases hu) hm
      · have htIn := ho tIn rfl
        by_cases hle : ts ≤ tIn
        · rw [show dailyStep (m, some tIn) ⟨ts, .pout⟩ = (m, none) by
            simp [dailyStep, hle]]
          exact ih m none lo hi hl' (by intro u hu; cases hu) hm
        · rw [show dailyStep (m, some tIn) ⟨ts, .pout⟩ = (dailyWalk tIn ts m, none) by
            simp [dailyStep, hle]]
          apply ih _ none lo hi hl' (by intro u hu; cases hu)
          intro q hq
          rcases dailyWalk_keys hq with hq | ⟨ha, hlo', hhi'⟩
          · exact hm q hq
          · exact ⟨ha, le_trans (getStartOfDay_mono htIn.1) hlo',
              le_trans hhi' (getStartOfDay_mono hp.2)⟩

theorem sorted_head_le {p : Punch} {l : List Punch} (hs : (p :: l).Sorted punchLE) :
    ∀ q ∈ p :: l, p.timestamp ≤ q.timestamp := by
  intro q hq
  rcases List.mem_cons.mp hq with rfl | hq
  · exact le_refl _
  · exact List.rel_of_sorted_cons hs q hq

theorem sorted_le_getLast :
    ∀ (l : List Punch) (hne : l ≠ []), l.Sorted punchLE →
      ∀ q ∈ l, q.timestamp ≤ (l.getLast hne).timestamp := by
  intro l
  induction l with
  | nil => intro hne; exact absurd rfl hne
  | cons p t ih =>
    cases t with
    | nil =>
      intro hne _ q hq
      rcases List.mem_singleton.mp hq with rfl
      exact le_refl _
    | cons a t2 =>
      intro hne hs q hq
      rw [List.getLast_cons (List.cons_ne_nil a t2)]
      rcases List.mem_cons.mp hq with rfl | hq2
      · exact List.rel_of_sorted_cons hs _ (List.getLast_mem (List.cons_ne_nil a t2))
      · exact ih (List.cons_ne_nil a t2) hs.of_cons q hq2

/-- The fill range `getDailyTotals` uses: `firstPunchDate` and
`endDateLimit` of the source, at the state the fill step sees. -/
def dailyRange (ps : List Punch) (now : ℤ) : ℤ × ℤ :=
  dailyBounds (sortPunches ps) (dailyMapOf (sortPunches ps) now).2 now

/-- Unfolding `getDailyTotals` past its guards. -/
theorem getDailyTotals_eq_fill_sort (ps : List Punch) (now : ℤ) (hne : ps ≠ [])
    (hmap : (dailyMapOf (sortPunches ps) now).1 ≠ []) :
    getDailyTotals ps now =
      ((fillDays (dailyRange ps now).2 (dailyRange ps now).1
        (dailyMapOf (sortPunches ps) now).1).map
          (fun e => (e.1, jsToFixed2 e.2))).insertionSort entryGE := by
  unfold getDailyTotals dailyRange
  rw [if_neg hne]
  dsimp only
  rw [if_neg hmap]

/-- Structure of `getDailyTotals`' output, given that the session-recorded
keys are aligned days within the fill range: the dates are exactly the
descending enumeration of the range, and days the sessions never touched
carry 0 hours. -/
theorem daily_tail (ps : List Punch) (now : ℤ) (hne : ps ≠ [])
    (hmap : (dailyMapOf (sortPunches ps) now).1 ≠ [])
    (hK1 : ∀ q ∈ ((dailyMapOf (sortPunches ps) now).1.map Prod.fst),
      DayKeyIn (dailyRange ps now).1 (dailyRange ps now).2 q)
    (hK2 : (((dailyMapOf (sortPunches ps) now).1).map Prod.fst).Nodup)
    (hb1 : (dailyRange ps now).1 = getStartOfDay (dailyRange ps now).1)
    (hb2 : (dailyRange ps now).2 = getStartOfDay (dailyRange ps now).2)
    (hb12 : (dailyRange ps now).1 ≤ (dailyRange ps now).2) :
    ((getDailyTotals ps now).map Prod.fst =
      dayRangeDesc (dailyRange ps now).1 (dailyRange ps now).2) ∧
    (∀ e ∈ getDailyTotals ps now,
      e.1 ∉ ((dailyMapOf (sortPunches ps) now).1.map Prod.fst) → e.2 = 0) := by
  have hS := getDailyTotals_eq_fill_sort ps now hne hmap
  have hfill : ∀ k, mapGet (fillDays (dailyRange ps now).2 (dailyRange ps now).1
      (dailyMapOf (sortPunches ps) now).1) k =
        if (dailyRange ps now).1 ≤ k ∧ k ≤ (dailyRange ps now).2 ∧
            k = getStartOfDay k ∧
            mapGet (dailyMapOf (sortPunches ps) now).1 k = none then some 0
        else mapGet (dailyMapOf (sortPunches ps) now).1 k :=
    fillDays_get (dailyRange ps now).2 (dailyRange ps now).1 _ hb1
  have hm2nodup : ((fillDays (dailyRange ps now).2 (dailyRange ps now).1
      (dailyMapOf (sortPunches ps) now).1).map Prod.fst).Nodup :=
    fillDays_keys_nodup _ _ _ hK2
  have hkeysm2 : ∀ k, k ∈ (fillDays (dailyRange ps now).2 (dailyRange ps now).1
      (dailyMapOf (sortPunches ps) now).1).map Prod.fst ↔
        DayKeyIn (dailyRange ps now).1 (dailyRange ps now).2 k := by
    intro k
    constructor
    · intro hk
      have hnn : mapGet (fillDays (dailyRange ps now).2 (dailyRange ps now).1
          (dailyMapOf (sortPunches ps) now).1) k ≠ none := by
        rw [Ne, mapGet_eq_none_iff]
        simpa using hk
      rw [hfill k] at hnn
      by_cases hcond : (dailyRange ps now).1 ≤ k ∧ k ≤ (dailyRange ps now).2 ∧
          k = getStartOfDay k ∧ mapGet (dailyMapOf (sortPunches ps) now).1 k = none
      · exact ⟨hcond.2.2.1, hcond.1, hcond.2.1⟩
      · rw [if_neg hcond] at hnn
        exact hK1 k (by
          by_contra hmem
          exact hnn ((mapGet_eq_none_iff _ k).mpr hmem))
    · intro hk
      have : mapGet (fillDays (dailyRange ps now).2 (dailyRange ps now).1
          (dailyMapOf (sortPunches ps) now).1) k ≠ none := by
        rw [hfill k]
        by_cases hmdk : mapGet (dailyMapOf (sortPunches ps) now).1 k = none
        · rw [if_pos ⟨hk.2.1, hk.2.2, hk.1, hmdk⟩]
          simp
        · split
          · simp
          · exact hmdk
      by_contra hmem
      exact this ((mapGet_eq_none_iff _ k).mpr hmem)
  have hfst_eq : ((fillDays (dailyRange ps now).2 (dailyRange ps now).1
      (dailyMapOf (sortPunches ps) now).1).map
        (fun e => (e.1, jsToFixed2 e.2))).map Prod.fst =
      (fillDays (dailyRange ps now).2 (dailyRange ps now).1
        (dailyMapOf (sortPunches ps) now).1).map Prod.fst := by
    rw [List.map_map]
    rfl
  have hSfst_perm : ((getDailyTotals ps now).map Prod.fst).Perm
      ((fillDays (dailyRange ps now).2 (dailyRange ps now).1
        (dailyMapOf (sortPunches ps) now).1).map Prod.fst) := by
    rw [hS, ← hfst_eq]
    exact (List.perm_insertionSort entryGE _).map Prod.fst
  have hperm2 : ((fillDays (dailyRange ps now).2 (dailyRange ps now).1
      (dailyMapOf (sortPunches ps) now).1).map Prod.fst).Perm
        (dayRangeDesc (dailyRange ps now).1 (dailyRange ps now).2) := by
    rw [List.perm_ext_iff_of_nodup hm2nodup (dayRangeDesc_nodup _ _)]
    intro k
    rw [hkeysm2 k, mem_dayRangeDesc_iff hb1 hb2 hb12 k]
    exact ⟨fun ⟨a, b, c⟩ => ⟨a, b, c⟩, fun ⟨a, b, c⟩ => ⟨a, b, c⟩⟩
  constructor
  · apply perm_sorted_nodupkey_eq (fun x : ℤ => x) (fun a b : ℤ => b ≤ a)
      (fun a b h1 h2 => le_antisymm h2 h1)
    · exact hSfst_perm.trans hperm2
    · rw [hS]
      exact List.pairwise_map.mpr
        ((List.sorted_insertionSort entryGE _).imp (fun h => h))
    · exact dayRangeDesc_sorted _ _
    · have : ((getDailyTotals ps now).map Prod.fst).Nodup :=
        (hSfst_perm.nodup_iff).mpr hm2nodup
      simpa using this
  · intro e heS hnotin
    rw [hS] at heS
    have heM : e ∈ (fillDays (dailyRange ps now).2 (dailyRange ps now).1
        (dailyMapOf (sortPunches ps) now).1).map (fun e => (e.1, jsToFixed2 e.2)) :=
      (List.perm_insertionSort entryGE _).subset heS
    obtain ⟨e2, he2, heq⟩ := List.mem_map.mp heM
    have hget : mapGet (fillDays (dailyRange ps now).2 (dailyRange ps now).1
        (dailyMapOf (sortPunches ps) now).1) e2.1 = some e2.2 :=
      (mapGet_some_iff_mem _ hm2nodup e2.1 e2.2).mpr he2
    have hfst : e2.1 = e.1 := by rw [← heq]
    have hmdnone : mapGet (dailyMapOf (sortPunches ps) now).1 e2.1 = none := by
      rw [mapGet_eq_none_iff]
      rw [hfst]
      exact hnotin
    rw [hfill e2.1] at hget
    by_cases hcond : (dailyRange ps now).1 ≤ e2.1 ∧ e2.1 ≤ (dailyRange ps now).2 ∧
        e2.1 = getStartOfDay e2.1 ∧
        mapGet (dailyMapOf (sortPunches ps) now).1 e2.1 = none
    · rw [if_pos hcond] at hget
      have he22 : e2.2 = 0 := (Option.some_inj.mp hget).symm
      have hsnd : jsToFixed2 e2.2 = e.2 := by rw [← heq]
      rw [← hsnd, he22]
      exact jsToFixed2_cent cent_zero
    · rw [if_neg hcond, hmdnone] at hget
      cases hget

theorem dailyBounds_eq (l : List Punch) (hne : l ≠ []) (o : Option ℤ) (now : ℤ) :
    dailyBounds l o now =
      (getStartOfDay (l.head hne).timestamp,
        match o with
        | some _ => getStartOfDay now
        | none => getStartOfDay ((l.getLast hne).timestamp)) := by
  cases l with
  | nil => exact absurd rfl hne
  | cons f r => rfl

/-- C2 as amended: for a non-empty punch set whose timestamps do not lie
in the future of the evaluation instant and whose sessions record at
least one day (the internal daily map is non-empty), `getDailyTotals`
returns exactly one DayBucket per local calendar day of the inclusive
range from the day of the earliest punch to the day of the latest punch
(today when a session is open), in descending date order; a day of that
range never touched by a session carries `hours = 0`.  `claim2_cex` shows
the non-empty-map restriction is necessary (a punch set with no
recordable session yields `[]`); a future dangling IN likewise shrinks
the fill limit (`endDateLimit` is today) below recorded buckets. -/
theorem claim2_amended_contiguous_daily (ps : List Punch) (now : ℤ)
    (hne : ps ≠ [])
    (hle : ∀ p ∈ ps, p.timestamp ≤ now)
    (hmap : (dailyMapOf (sortPunches ps) now).1 ≠ []) :
    ((getDailyTotals ps now).map Prod.fst =
      dayRangeDesc (dailyRange ps now).1 (dailyRange ps now).2) ∧
    (∀ e ∈ getDailyTotals ps now,
      e.1 ∉ ((dailyMapOf (sortPunches ps) now).1.map Prod.fst) → e.2 = 0) ∧
    (∀ p ∈ ps, (dailyRange ps now).1 ≤ getStartOfDay p.timestamp) ∧
    (∃ p ∈ ps, getStartOfDay p.timestamp = (dailyRange ps now).1) ∧
    ((dailyMapOf (sortPunches ps) now).2 ≠ none →
      (dailyRange ps now).2 = getStartOfDay now) ∧
    ((dailyMapOf (sortPunches ps) now).2 = none →
      (∀ p ∈ ps, getStartOfDay p.timestamp ≤ (dailyRange ps now).2) ∧
      (∃ p ∈ ps, getStartOfDay p.timestamp = (dailyRange ps now).2)) := by
  have hperm : (sortPunches ps).Perm ps := List.perm_insertionSort punchLE ps
  have hsorted : (sortPunches ps).Sorted punchLE := List.sorted_insertionSort punchLE ps
  have hlne : sortPunches ps ≠ [] := by
    intro h
    apply hne
    apply List.Perm.eq_nil
    rw [← h]
    exact hperm.symm
  obtain ⟨first, rest, hl2⟩ := List.exists_cons_of_ne_nil hlne
  have hheadval : (sortPunches ps).head hlne = first := by simp [hl2]
  have hlo : ∀ q ∈ sortPunches ps,
      ((sortPunches ps).head hlne).timestamp ≤ q.timestamp := by
    rw [hheadval]
    intro q hq
    exact sorted_head_le (hl2 ▸ hsorted) q (hl2 ▸ hq)
  have hhead_mem : (sortPunches ps).head hlne ∈ sortPunches ps := List.head_mem hlne
  have hlast_mem : (sortPunches ps).getLast hlne ∈ sortPunches ps := List.getLast_mem hlne
  have hhi : ∀ q ∈ sortPunches ps,
      q.timestamp ≤ ((sortPunches ps).getLast hlne).timestamp :=
    sorted_le_getLast _ hlne hsorted
  have hle' : ∀ q ∈ sortPunches ps, q.timestamp ≤ now :=
    fun q hq => hle q (hperm.subset hq)
  have hlohi : ((sortPunches ps).head hlne).timestamp ≤
      ((sortPunches ps).getLast hlne).timestamp := hhi _ hhead_mem
  have hfold := dailyFold_bound (sortPunches ps) [] none
    ((sortPunches ps).head hlne).timestamp
    ((sortPunches ps).getLast hlne).timestamp
    (fun p hp => ⟨hlo p hp, hhi p hp⟩) (by intro u hu; cases hu) (by simp)
  have hfoldnodup := dailyFold_keys_nodup (sortPunches ps) ([], none) (by simp)
  have hb : dailyRange ps now =
      (getStartOfDay ((sortPunches ps).head hlne).timestamp,
        match (dailyMapOf (sortPunches ps) now).2 with
        | some _ => getStartOfDay now
        | none => getStartOfDay (((sortPunches ps).getLast hlne).timestamp)) := by
    unfold dailyRange
    exact dailyBounds_eq _ hlne _ now
  have hbfst : (dailyRange ps now).1 =
      getStartOfDay ((sortPunches ps).head hlne).timestamp := by rw [hb]
  have hb1 : (dailyRange ps now).1 = getStartOfDay (dailyRange ps now).1 := by
    rw [hbfst]
    exact (getStartOfDay_idem _).symm
  have hconj3 : ∀ p ∈ ps, (dailyRange ps now).1 ≤ getStartOfDay p.timestamp := by
    intro p hp
    rw [hbfst]
    exact getStartOfDay_mono (hlo p (hperm.symm.subset hp))
  have hconj4 : ∃ p ∈ ps, getStartOfDay p.timestamp = (dailyRange ps now).1 :=
    ⟨(sortPunches ps).head hlne, hperm.subset hhead_mem, hbfst.symm⟩
  rcases hst2 : ((sortPunches ps).foldl dailyStep ([], none)).2 with _ | tIn
  case none =>
    have hmd : dailyMapOf (sortPunches ps) now =
        (sortPunches ps).foldl dailyStep ([], none) := by
      unfold dailyMapOf
      dsimp only
      rw [hst2]
    have hmd2 : (dailyMapOf (sortPunches ps) now).2 = none := by rw [hmd]; exact hst2
    have hbsnd : (dailyRange ps now).2 =
        getStartOfDay (((sortPunches ps).getLast hlne).timestamp) := by
      rw [hb]
      dsimp only
      rw [hmd2]
    have hb2 : (dailyRange ps now).2 = getStartOfDay (dailyRange ps now).2 := by
      rw [hbsnd]
      exact (getStartOfDay_idem _).symm
    have hb12 : (dailyRange ps now).1 ≤ (dailyRange ps now).2 := by
      rw [hbfst, hbsnd]
      exact getStartOfDay_mono hlohi
    have hK1 : ∀ q ∈ ((dailyMapOf (sortPunches ps) now).1.map Prod.fst),
        DayKeyIn (dailyRange ps now).1 (dailyRange ps now).2 q := by
      intro q hq
      rw [hmd] at hq
      have := hfold.1 q hq
      rw [hbfst, hbsnd]
      exact this
    have hK2 : (((dailyMapOf (sortPunches ps) now).1).map Prod.fst).Nodup := by
      rw [hmd]
      exact hfoldnodup
    obtain ⟨hc1, hc2⟩ := daily_tail ps now hne hmap hK1 hK2 hb1 hb2 hb12
    refine ⟨hc1, hc2, hconj3, hconj4, ?_, ?_⟩
    · intro h
      exact absurd hmd2 h
    · intro _
      constructor
      · intro p hp
        rw [hbsnd]
        exact getStartOfDay_mono (hhi p (hperm.symm.subset hp))
      · exact ⟨(sortPunches ps).getLast hlne, hperm.subset hlast_mem, hbsnd.symm⟩
  case some =>
    have hmd : dailyMapOf (sortPunches ps) now =
        (if tIn < now then
          openWalk now tIn ((sortPunches ps).foldl dailyStep ([], none)).1
        else ((sortPunches ps).foldl dailyStep ([], none)).1, some tIn) := by
      unfold dailyMapOf
      dsimp only
      rw [hst2]
    have hmd2 : (dailyMapOf (sortPunches ps) now).2 = some tIn := by rw [hmd]
    have hbsnd : (dailyRange ps now).2 = getStartOfDay now := by
      rw [hb]
      dsimp only
      rw [hmd2]
    have hb2 : (dailyRange ps now).2 = getStartOfDay (dailyRange ps now).2 := by
      rw [hbsnd]
      exact (getStartOfDay_idem _).symm
    have hhinow : ((sortPunches ps).getLast hlne).timestamp ≤ now := hle' _ hlast_mem
    have hb12 : (dailyRange ps now).1 ≤ (dailyRange ps now).2 := by
      rw [hbfst, hbsnd]
      exact getStartOfDay_mono (le_trans hlohi hhinow)
    have htIn := hfold.2 tIn hst2
    have hstK : ∀ q ∈ (((sortPunches ps).foldl dailyStep ([], none)).1.map Prod.fst),
        DayKeyIn (dailyRange ps now).1 (dailyRange ps now).2 q := by
      intro q hq
      obtain ⟨ha, hql, hqh⟩ := hfold.1 q hq
      rw [hbfst, hbsnd]
      exact ⟨ha, hql, le_trans hqh (getStartOfDay_mono hhinow)⟩
    have hK1 : ∀ q ∈ ((dailyMapOf (sortPunches ps) now).1.map Prod.fst),
        DayKeyIn (dailyRange ps now).1 (dailyRange ps now).2 q := by
      intro q hq
      rw [hmd] at hq
      dsimp only at hq
      by_cases hlt : tIn < now
      · rw [if_pos hlt] at hq
        rcases openWalk_keys hq with hq | ⟨ha, hql, hqh⟩
        · exact hstK q hq
        · rw [hbfst, hbsnd]
          exact ⟨ha, le_trans (getStartOfDay_mono htIn.1) hql, hqh⟩
      · rw [if_neg hlt] at hq
        exact hstK q hq
    have hK2 : (((dailyMapOf (sortPunches ps) now).1).map Prod.fst).Nodup := by
      rw [hmd]
      dsimp only
      split
      · exact openWalkAux_keys_nodup now _ tIn _ hfoldnodup
      · exact hfoldnodup
    obtain ⟨hc1, hc2⟩ := daily_tail ps now hne hmap hK1 hK2 hb1 hb2 hb12
    refine ⟨hc1, hc2, hconj3, hconj4, fun _ => hbsnd, ?_⟩
    intro h
    rw [hmd2] at h
    cases h

/-- C2 witness: the amended claim's conclusion at Scenario B's punch set,
hypotheses discharged at that concrete input. -/
theorem claim2_witness :
    (getDailyTotals [⟨1704146400000, .pin⟩, ⟨1704160800000, .pout⟩]
        1704160800000).map Prod.fst =
      dayRangeDesc
        (dailyRange [⟨1704146400000, .pin⟩, ⟨1704160800000, .pout⟩] 1704160800000).1
        (dailyRange [⟨1704146400000, .pin⟩, ⟨1704160800000, .pout⟩] 1704160800000).2 :=
  (claim2_amended_contiguous_daily [⟨1704146400000, .pin⟩, ⟨1704160800000, .pout⟩]
    1704160800000 (by simp) (by decide) (by
      norm_num [dailyMapOf, dailyStep, dailyWalk, dailyWalkAux, walkBody, mapAdd,
        mapGet, mapSet, sortPunches, List.insertionSort, List.orderedInsert, punchLE,
        getStartOfDay_eq, getEndOfDay, fdiv_day, isSameDay_eq, msPerDay, msPerHour,
        calculateHoursBetween, jsToFixed2, ratFloor_eq_intFloor] <;> simp)).1

/-! ## Claim C9: order-insensitivity for distinct timestamps -/

/-- Permutations with pairwise-distinct timestamps have the same stable
sort. -/
theorem sortPunches_perm_eq {ps1 ps2 : List Punch} (hp : ps1.Perm ps2)
    (hnd : (ps1.map Punch.timestamp).Nodup) :
    sortPunches ps1 = sortPunches ps2 := by
  apply perm_sorted_nodupkey_eq Punch.timestamp punchLE
    (fun a b h1 h2 => le_antisymm h1 h2)
  · exact ((List.perm_insertionSort punchLE ps1).trans hp).trans
      (List.perm_insertionSort punchLE ps2).symm
  · exact List.sorted_insertionSort punchLE ps1
  · exact List.sorted_insertionSort punchLE ps2
  · exact (((List.perm_insertionSort punchLE ps1).map Punch.timestamp).nodup_iff).mpr hnd

/-- Punches of the week `w`, in list order. -/
def weekFilter (w : ℤ) (l : List Punch) : List Punch :=
  l.filter (fun p => decide (getStartOfWeek p.timestamp = w))

/-- What the week-grouping loop of `getWeeklyTotals` stores under a key:
exactly the punches of that week, in input order. -/
theorem groupFold_get (w : ℤ) :
    ∀ (l : List Punch) (m : List (ℤ × List Punch)),
      mapGet (l.foldl groupStep m) w =
        match mapGet m w with
        | some g => some (g ++ weekFilter w l)
        | none => if weekFilter w l = [] then none else some (weekFilter w l) := by
  intro l
  induction l with
  | nil =>
    intro m
    cases hg : mapGet m w <;> simp [weekFilter, hg]
  | cons q t ih =>
    intro m
    rw [List.foldl_cons]
    rw [ih (groupStep m q)]
    by_cases hw : getStartOfWeek q.timestamp = w
    · have hget : mapGet (groupStep m q) w =
          some (((mapGet m w).getD []) ++ [q]) := by
        unfold groupStep
        rw [← hw]
        exact mapGet_set_self m _ _
      rw [hget]
      have hfil : weekFilter w (q :: t) = q :: weekFilter w t := by
        simp [weekFilter, List.filter_cons, hw]
      rw [hfil]
      cases hg : mapGet m w
      · simp
      · simp
    · have hget : mapGet (groupStep m q) w = mapGet m w := by
        unfold groupStep
        exact mapGet_set_ne m _ _ w hw
      rw [hget]
      have hfil : weekFilter w (q :: t) = weekFilter w t := by
        simp [weekFilter, List.filter_cons, hw]
      rw [hfil]

theorem groupFold_keys_nodup :
    ∀ (l : List Punch) (m : List (ℤ × List Punch)),
      (m.map Prod.fst).Nodup → ((l.foldl groupStep m).map Prod.fst).Nodup := by
  intro l
  induction l with
  | nil => intro m hm; exact hm
  | cons q t ih =>
    intro m hm
    exact ih (groupStep m q) (nodupkeys_mapSet m _ _ hm)

/-- Membership in `getWeeklyTotals`' unsorted bucket list: a (week, hours)
pair appears exactly when the week has a punch, with the hours computed
from that week's punches. -/
theorem weekly_entry_mem (ps : List Punch) (now w : ℤ) (h : ℚ) :
    (w, h) ∈ (ps.foldl groupStep []).map
        (fun e => (e.1, calculateTotalHours e.2 now)) ↔
      (weekFilter w ps ≠ [] ∧ h = calculateTotalHours (weekFilter w ps) now) := by
  have hkeys : ((ps.foldl groupStep []).map Prod.fst).Nodup :=
    groupFold_keys_nodup ps [] (by simp)
  have hchar := groupFold_get w ps []
  rw [show mapGet ([] : List (ℤ × List Punch)) w = none from rfl] at hchar
  constructor
  · intro hmem
    obtain ⟨e, heG, heq⟩ := List.mem_map.mp hmem
    have hw : e.1 = w := congrArg Prod.fst heq
    have hh : calculateTotalHours e.2 now = h := congrArg Prod.snd heq
    have hget : mapGet (ps.foldl groupStep []) e.1 = some e.2 :=
      (mapGet_some_iff_mem _ hkeys e.1 e.2).mpr heG
    rw [hw, hchar] at hget
    by_cases hf : weekFilter w ps = []
    · rw [if_pos hf] at hget
      cases hget
    · rw [if_neg hf] at hget
      refine ⟨hf, ?_⟩
      rw [← hh, Option.some_inj.mp hget]
  · rintro ⟨hne, hh⟩
    subst hh
    apply List.mem_map.mpr
    refine ⟨(w, weekFilter w ps), ?_, rfl⟩
    apply (mapGet_some_iff_mem _ hkeys w _).mp
    rw [hchar, if_neg hne]

theorem weeklyMapped_keys_nodup (ps : List Punch) (now : ℤ) :
    (((ps.foldl groupStep []).map
      (fun e => (e.1, calculateTotalHours e.2 now))).map Prod.fst).Nodup := by
  have hkeys := groupFold_keys_nodup ps [] (by simp)
  have hmapfst : ((ps.foldl groupStep []).map
      (fun e => (e.1, calculateTotalHours e.2 now))).map Prod.fst =
        (ps.foldl groupStep []).map Prod.fst := by
    rw [List.map_map]
    rfl
  rw [hmapfst]
  exact hkeys

/-- Same week, same punches (as a set with distinct timestamps), same
bucket list up to permutation. -/
theorem weeklyMapped_perm (ps1 ps2 : List Punch) (now : ℤ) (hp : ps1.Perm ps2)
    (hnd : (ps1.map Punch.timestamp).Nodup) :
    ((ps1.foldl groupStep []).map
        (fun e => (e.1, calculateTotalHours e.2 now))).Perm
      ((ps2.foldl groupStep []).map
        (fun e => (e.1, calculateTotalHours e.2 now))) := by
  have hn1 := weeklyMapped_keys_nodup ps1 now
  have hn2 := weeklyMapped_keys_nodup ps2 now
  rw [List.perm_ext_iff_of_nodup (List.Nodup.of_map Prod.fst hn1)
    (List.Nodup.of_map Prod.fst hn2)]
  rintro ⟨w, h⟩
  rw [weekly_entry_mem, weekly_entry_mem]
  have hfp : (weekFilter w ps1).Perm (weekFilter w ps2) := hp.filter _
  have hniff : weekFilter w ps1 = [] ↔ weekFilter w ps2 = [] := by
    constructor
    · intro hf
      exact List.Perm.eq_nil (hf ▸ hfp).symm
    · intro hf
      exact List.Perm.eq_nil (hf ▸ hfp)
  have hcalc : calculateTotalHours (weekFilter w ps1) now =
      calculateTotalHours (weekFilter w ps2) now := by
    unfold calculateTotalHours
    by_cases hf : weekFilter w ps1 = []
    · rw [if_pos hf, if_pos (hniff.mp hf)]
    · rw [if_neg hf, if_neg (fun hh => hf (hniff.mpr hh))]
      dsimp only
      rw [sortPunches_perm_eq hfp
        (hnd.sublist ((List.filter_sublist ps1).map Punch.timestamp))]
  constructor
  · rintro ⟨hne, hh⟩
    exact ⟨fun hx => hne (hniff.mpr hx), by rw [hh, hcalc]⟩
  · rintro ⟨hne, hh⟩
    exact ⟨fun hx => hne (hniff.mp hx), by rw [hh, hcalc]⟩

/-- C9 as amended: for punch lists with pairwise-distinct timestamps (the
data model's stored invariant), `calculateHoursWorkedToday`,
`getDailyTotals` and `getWeeklyTotals` are insensitive to the order of the
input array: each sorts (or groups and then sorts) before pairing.
`claim9_cex` shows the restriction to distinct timestamps is necessary. -/
theorem claim9_amended_order_insensitive (ps1 ps2 : List Punch) (now : ℤ)
    (hp : ps1.Perm ps2) (hnd : (ps1.map Punch.timestamp).Nodup) :
    calculateHoursWorkedToday ps1 now = calculateHoursWorkedToday ps2 now ∧
    getDailyTotals ps1 now = getDailyTotals ps2 now ∧
    getWeeklyTotals ps1 now = getWeeklyTotals ps2 now := by
  have hsort : sortPunches ps1 = sortPunches ps2 := sortPunches_perm_eq hp hnd
  by_cases h1 : ps1 = []
  · have h2 : ps2 = [] := List.Perm.eq_nil (h1 ▸ hp).symm
    subst h1
    subst h2
    exact ⟨rfl, rfl, rfl⟩
  · have h2 : ps2 ≠ [] := fun hh => h1 (List.Perm.eq_nil (hh ▸ hp))
    refine ⟨?_, ?_, ?_⟩
    · unfold calculateHoursWorkedToday
      rw [if_neg h1, if_neg h2, hsort]
    · unfold getDailyTotals
      rw [if_neg h1, if_neg h2, hsort]
    · unfold getWeeklyTotals
      rw [if_neg h1, if_neg h2]
      dsimp only
      exact perm_sorted_nodupkey_eq Prod.fst entryGE
        (fun a b hab hba => le_antisymm hba hab) _ _
        (((List.perm_insertionSort entryGE _).trans
          (weeklyMapped_perm ps1 ps2 now hp hnd)).trans
          (List.perm_insertionSort entryGE _).symm)
        (List.sorted_insertionSort entryGE _)
        (List.sorted_insertionSort entryGE _)
        ((((List.perm_insertionSort entryGE _).map Prod.fst).nodup_iff).mpr
          (weeklyMapped_keys_nodup ps1 now))

/-- C9 witness: the amended claim at the concrete punch set
{IN@0, OUT@1h} in its two input orders, evaluated at 2h. -/
theorem claim9_witness :
    calculateHoursWorkedToday [⟨0, .pin⟩, ⟨3600000, .pout⟩] 7200000 =
      calculateHoursWorkedToday [⟨3600000, .pout⟩, ⟨0, .pin⟩] 7200000 ∧
    getDailyTotals [⟨0, .pin⟩, ⟨3600000, .pout⟩] 7200000 =
      getDailyTotals [⟨3600000, .pout⟩, ⟨0, .pin⟩] 7200000 ∧
    getWeeklyTotals [⟨0, .pin⟩, ⟨3600000, .pout⟩] 7200000 =
      getWeeklyTotals [⟨3600000, .pout⟩, ⟨0, .pin⟩] 7200000 :=
  claim9_amended_order_insensitive [⟨0, .pin⟩, ⟨3600000, .pout⟩]
    [⟨3600000, .pout⟩, ⟨0, .pin⟩] 7200000 (List.Perm.swap _ _ _) (by decide)

/-- C5 witness: the amended claim at the concrete sorted lists
`[IN 10, IN 20, OUT 30]` and `[IN 20, OUT 30]`, evaluated at `now` = 40. -/
theorem claim5_witness :
    calculateHoursWorkedToday [⟨10, .pin⟩, ⟨20, .pin⟩, ⟨30, .pout⟩] 40 =
      calculateHoursWorkedToday [⟨20, .pin⟩, ⟨30, .pout⟩] 40 ∧
    dailyMapOf (sortPunches [⟨10, .pin⟩, ⟨20, .pin⟩, ⟨30, .pout⟩]) 40 =
      dailyMapOf (sortPunches [⟨20, .pin⟩, ⟨30, .pout⟩]) 40 ∧
    sessionsOf (sortPunches [⟨10, .pin⟩, ⟨20, .pin⟩, ⟨30, .pout⟩]) =
      sessionsOf (sortPunches [⟨20, .pin⟩, ⟨30, .pout⟩]) :=
  claim5_amended_superseded_in [⟨10, .pin⟩, ⟨20, .pin⟩, ⟨30, .pout⟩]
    [⟨20, .pin⟩, ⟨30, .pout⟩] 40 ⟨10, .pin⟩ ⟨20, .pin⟩ [] [⟨30, .pout⟩] rfl rfl
    (by norm_num [sortPunches, List.insertionSort, List.orderedInsert, punchLE])
    (by norm_num [sortPunches, List.insertionSort, List.orderedInsert, punchLE])

/-! ## Claim C6: daily-total sum against weekly-total sum

Claim C6 quantifies over punch sets in which no session crosses a
Sunday-start week boundary.  Such punch sets are modelled as a list of
closed sessions in chronological order (`SessChain`), each within one
local calendar day (weeks split at midnights, so a same-day session
crosses no week boundary). -/

/-- The punch list of a list of closed sessions: IN, OUT, IN, OUT, … -/
def sessJoin : List (ℤ × ℤ) → List Punch
  | [] => []
  | se :: rest => ⟨se.1, .pin⟩ :: ⟨se.2, .pout⟩ :: sessJoin rest

/-- Chronologically ordered, non-degenerate closed sessions. -/
def SessChain : List (ℤ × ℤ) → Prop
  | [] => True
  | se :: rest => se.1 < se.2 ∧ (∀ se2 ∈ rest, se.2 < se2.1) ∧ SessChain rest

theorem sessChain_mem : ∀ (sl : List (ℤ × ℤ)), SessChain sl →
    ∀ se ∈ sl, se.1 < se.2 := by
  intro sl
  induction sl with
  | nil => intro _ se h; cases h
  | cons a t ih =>
    intro hc se hse
    rcases List.mem_cons.mp hse with rfl | hse
    · exact hc.1
    · exact ih hc.2.2 se hse

theorem sessChain_of_filter (p : ℤ × ℤ → Bool) :
    ∀ (sl : List (ℤ × ℤ)), SessChain sl → SessChain (sl.filter p) := by
  intro sl
  induction sl with
  | nil => intro _; exact trivial
  | cons a t ih =>
    intro hc
    rw [List.filter_cons]
    split
    · exact ⟨hc.1, fun se2 h2 => hc.2.1 se2 (List.mem_of_mem_filter h2), ih hc.2.2⟩
    · exact ih hc.2.2

theorem mem_sessJoin_ts : ∀ (sl : List (ℤ × ℤ)) (p : Punch), p ∈ sessJoin sl →
    ∃ se ∈ sl, p.timestamp = se.1 ∨ p.timestamp = se.2 := by
  intro sl
  induction sl with
  | nil => intro p h; cases h
  | cons a t ih =>
    intro p hp
    rcases List.mem_cons.mp hp with rfl | hp
    · exact ⟨a, List.mem_cons_self a t, Or.inl rfl⟩
    · rcases List.mem_cons.mp hp with rfl | hp
      · exact ⟨a, List.mem_cons_self a t, Or.inr rfl⟩
      · obtain ⟨se, hse, h⟩ := ih p hp
        exact ⟨se, List.mem_cons_of_mem a hse, h⟩

theorem sessJoin_mem_in : ∀ (sl : List (ℤ × ℤ)) (se : ℤ × ℤ), se ∈ sl →
    (⟨se.1, .pin⟩ : Punch) ∈ sessJoin sl := by
  intro sl
  induction sl with
  | nil => intro se h; cases h
  | cons a t ih =>
    intro se hse
    rcases List.mem_cons.mp hse with rfl | hse
    · exact List.mem_cons_self _ _
    · exact List.mem_cons_of_mem _ (List.mem_cons_of_mem _ (ih se hse))

theorem sessJoin_sorted : ∀ (sl : List (ℤ × ℤ)), SessChain sl →
    (sessJoin sl).Sorted punchLE := by
  intro sl
  induction sl with
  | nil => intro _; exact List.Pairwise.nil
  | cons a t ih =>
    intro hc
    have hrest := ih hc.2.2
    have hbound : ∀ q ∈ sessJoin t, a.2 ≤ q.timestamp := by
      intro q hq
      obtain ⟨se, hse, h⟩ := mem_sessJoin_ts t q hq
      have h1 := hc.2.1 se hse
      have h2 := sessChain_mem t hc.2.2 se hse
      rcases h with h | h <;> (rw [h]; omega)
    refine List.Pairwise.cons ?_ (List.Pairwise.cons ?_ hrest)
    · intro q hq
      rcases List.mem_cons.mp hq with rfl | hq
      · exact le_of_lt hc.1
      · exact le_trans (le_of_lt hc.1) (hbound q hq)
    · exact hbound

/-- Sum of the values of the daily hours map. -/
def valsSum (m : List (ℤ × ℚ)) : ℚ := (m.map Prod.snd).sum

theorem valsSum_mapAdd (m : List (ℤ × ℚ)) (k : ℤ) (v : ℚ) :
    valsSum (mapAdd m k v) = valsSum m + v := by
  induction m with
  | nil => simp [valsSum, mapAdd, mapSet, mapGet]
  | cons e rest ih =>
    rcases e with ⟨ek, ev⟩
    by_cases he : ek = k
    · subst he
      simp [valsSum, mapAdd, mapSet, mapGet]
      ring
    · have hadd : mapAdd ((ek, ev) :: rest) k v = (ek, ev) :: mapAdd rest k v := by
        simp [mapAdd, mapSet, mapGet, he]
      rw [hadd]
      simp only [valsSum, List.map_cons, List.sum_cons] at ih ⊢
      rw [ih]
      ring

theorem valsSum_mapSet_new (m : List (ℤ × ℚ)) (k : ℤ) (v : ℚ)
    (h : mapGet m k = none) : valsSum (mapSet m k v) = valsSum m + v := by
  induction m with
  | nil => simp [valsSum, mapSet]
  | cons e rest ih =>
    rcases e with ⟨ek, ev⟩
    by_cases he : ek = k
    · rw [show mapGet ((ek, ev) :: rest) k = some ev by simp [mapGet, he]] at h
      cases h
    · rw [show mapGet ((ek, ev) :: rest) k = mapGet rest k by simp [mapGet, he]] at h
      rw [show mapSet ((ek, ev) :: rest) k v = (ek, ev) :: mapSet rest k v by
        simp [mapSet, he]]
      simp only [valsSum, List.map_cons, List.sum_cons] at ih ⊢
      rw [ih h]
      ring

theorem valsSum_fillDaysAux (e : ℤ) :
    ∀ (fuel : ℕ) (c : ℤ) (m : List (ℤ × ℚ)),
      valsSum (fillDaysAux e fuel c m) = valsSum m := by
  intro fuel
  induction fuel with
  | zero => intro c m; rfl
  | succ fuel ih =>
    intro c m
    rw [fillDaysAux_succ]
    split
    · rw [ih]
      split
      · rfl
      · rw [valsSum_mapSet_new m c 0 (by
          rename_i hns
          exact Option.not_isSome_iff_eq_none.mp hns)]
        ring
    · rfl

theorem mapGet_some_mem {β : Type} :
    ∀ (m : List (ℤ × β)) (k : ℤ) (v : β), mapGet m k = some v → (k, v) ∈ m := by
  intro m
  induction m with
  | nil => intro k v h; cases h
  | cons e rest ih =>
    intro k v h
    rcases e with ⟨ek, ev⟩
    by_cases he : ek = k
    · subst he
      rw [show mapGet ((ek, ev) :: rest) ek = some ev by simp [mapGet]] at h
      rw [← Option.some_inj.mp h]
      exact List.mem_cons_self _ _
    · rw [show mapGet ((ek, ev) :: rest) k = mapGet rest k by simp [mapGet, he]] at h
      exact List.mem_cons_of_mem _ (ih k v h)

theorem mem_mapSet {β : Type} :
    ∀ (m : List (ℤ × β)) (k : ℤ) (v : β) (x : ℤ × β),
      x ∈ mapSet m k v → x = (k, v) ∨ x ∈ m := by
  intro m
  induction m with
  | nil =>
    intro k v x h
    exact Or.inl (List.mem_singleton.mp h)
  | cons e rest ih =>
    intro k v x h
    by_cases he : e.1 = k
    · rw [show mapSet (e :: rest) k v = (k, v) :: rest by
        cases e; simp_all [mapSet]] at h
      rcases List.mem_cons.mp h with h | h
      · exact Or.inl h
      · exact Or.inr (List.mem_cons_of_mem e h)
    · rw [show mapSet (e :: rest) k v = e :: mapSet rest k v by
        cases e; simp_all [mapSet]] at h
      rcases List.mem_cons.mp h with h | h
      · exact Or.inr (h ▸ List.mem_cons_self e rest)
      · rcases ih k v x h with h | h
        · exact Or.inl h
        · exact Or.inr (List.mem_cons_of_mem e h)

/-- Every value of the map is a whole number of hundredths. -/
def MapCent (m : List (ℤ × ℚ)) : Prop := ∀ e ∈ m, Cent e.2

theorem mapCent_mapAdd {m : List (ℤ × ℚ)} {k : ℤ} {v : ℚ}
    (hm : MapCent m) (hv : Cent v) : MapCent (mapAdd m k v) := by
  intro e he
  rcases mem_mapSet _ _ _ _ he with rfl | he
  · dsimp only
    apply cent_add _ hv
    cases hg : mapGet m k
    · simpa [hg] using cent_zero
    · simpa using hm _ (mapGet_some_mem m k _ hg)
  · exact hm e he

theorem mapCent_mapSet_zero {m : List (ℤ × ℚ)} {k : ℤ}
    (hm : MapCent m) : MapCent (mapSet m k 0) := by
  intro e he
  rcases mem_mapSet _ _ _ _ he with rfl | he
  · exact cent_zero
  · exact hm e he

theorem mapCent_fillDaysAux (e : ℤ) :
    ∀ (fuel : ℕ) (c : ℤ) (m : List (ℤ × ℚ)),
      MapCent m → MapCent (fillDaysAux e fuel c m) := by
  intro fuel
  induction fuel with
  | zero => intro c m hm; exact hm
  | succ fuel ih =>
    intro c m hm
    rw [fillDaysAux_succ]
    split
    · apply ih
      split
      · exact hm
      · exact mapCent_mapSet_zero hm
    · exact hm

/-- Rounding every value of a centesimal map changes no value, hence no
sum. -/
theorem valsSum_round_of_cent {m : List (ℤ × ℚ)} (hm : MapCent m) :
    ((m.map (fun e => (e.1, jsToFixed2 e.2))).map Prod.snd).sum = valsSum m := by
  unfold valsSum
  rw [List.map_map]
  congr 1
  apply List.map_congr_left
  intro e he
  exact jsToFixed2_cent (hm e he)

/-- Same local day, same Sunday-start week: `getStartOfWeek` factors
through the day index. -/
theorem week_eq_of_sameDay {t1 t2 : ℤ} (h : isSameDay t1 t2) :
    getStartOfWeek t1 = getStartOfWeek t2 := by
  have hfd : t1.fdiv msPerDay = t2.fdiv msPerDay := h
  unfold getStartOfWeek getStartOfDay jsGetDay
  rw [hfd]

/-- A whole number of hundredths of an hour: a duration divisible by
36 000 ms converts to an exact multiple of 1/100 h. -/
theorem cent_div_msPerHour {n : ℤ} (h : (36000 : ℤ) ∣ n) :
    Cent ((n : ℚ) / msPerHour) := by
  obtain ⟨k, rfl⟩ := h
  refine ⟨k, ?_⟩
  unfold msPerHour
  push_cast
  ring

/-- On durations divisible by 36 000 ms, `calculateHoursBetween` is the
exact millisecond-to-hour conversion (its rounding is a no-op). -/
theorem calcHB_exact {s e : ℤ} (h : (36000 : ℤ) ∣ (e - s)) :
    calculateHoursBetween s e = ((e - s : ℤ) : ℚ) / msPerHour := by
  unfold calculateHoursBetween
  exact jsToFixed2_cent (cent_div_msPerHour h)

theorem sum_msdiv : ∀ (l : List ℤ),
    (l.map (fun n : ℤ => (n : ℚ) / msPerHour)).sum = ((l.sum : ℤ) : ℚ) / msPerHour := by
  intro l
  induction l with
  | nil => simp
  | cons a t ih =>
    rw [List.map_cons, List.sum_cons, List.sum_cons, ih]
    push_cast
    ring

theorem sum_map_addQ (K : List ℤ) (g h : ℤ → ℚ) :
    (K.map (fun w => g w + h w)).sum = (K.map g).sum + (K.map h).sum := by
  induction K with
  | nil => simp
  | cons a t ih =>
    rw [List.map_cons, List.map_cons, List.map_cons, List.sum_cons, List.sum_cons,
      List.sum_cons, ih]
    ring

theorem sum_ite_zeroQ : ∀ (K : List ℤ) (k : ℤ) (x : ℚ), k ∉ K →
    (K.map (fun w => if k = w then x else 0)).sum = 0 := by
  intro K
  induction K with
  | nil => intro k x _; simp
  | cons a t ih =>
    intro k x hk
    rw [List.map_cons, List.sum_cons]
    rw [if_neg (fun he => hk (by rw [he]; exact List.mem_cons_self a t))]
    rw [ih k x (fun hm => hk (List.mem_cons_of_mem a hm))]
    ring

theorem sum_ite_singleQ : ∀ (K : List ℤ), K.Nodup → ∀ (k : ℤ) (x : ℚ), k ∈ K →
    (K.map (fun w => if k = w then x else 0)).sum = x := by
  intro K
  induction K with
  | nil => intro _ k x hk; cases hk
  | cons a t ih =>
    intro hnd k x hk
    rw [List.map_cons, List.sum_cons]
    by_cases he : k = a
    · subst he
      rw [if_pos rfl, sum_ite_zeroQ t k x (List.nodup_cons.mp hnd).1]
      ring
    · rw [if_neg he]
      rcases List.mem_cons.mp hk with h | h
      · exact absurd h he
      · rw [ih (List.nodup_cons.mp hnd).2 k x h]
        ring

/-- Summing per-key filtered sums over a duplicate-free key list covering
every element recovers the plain sum. -/
theorem sum_filter_partition {α : Type} (key : α → ℤ) (f : α → ℚ) :
    ∀ (l : List α) (K : List ℤ), K.Nodup → (∀ a ∈ l, key a ∈ K) →
      (K.map (fun w => ((l.filter (fun a => decide (key a = w))).map f).sum)).sum
        = (l.map f).sum := by
  intro l
  induction l with
  | nil =>
    intro K _ _
    simp
  | cons a t ih =>
    intro K hnd hcov
    have hsplit : ∀ w : ℤ,
        (((a :: t).filter (fun x => decide (key x = w))).map f).sum =
          (if key a = w then f a else 0) +
            ((t.filter (fun x => decide (key x = w))).map f).sum := by
      intro w
      by_cases hw : key a = w
      · simp [List.filter_cons, hw]
      · simp [List.filter_cons, hw]
    calc (K.map fun w => (((a :: t).filter fun x => decide (key x = w)).map f).sum).sum
        = (K.map fun w => (if key a = w then f a else 0) +
            ((t.filter fun x => decide (key x = w)).map f).sum).sum :=
          congrArg List.sum (List.map_congr_left (fun w _ => hsplit w))
      _ = (K.map fun w => if key a = w then f a else 0).sum +
            (K.map fun w => ((t.filter fun x => decide (key x = w)).map f).sum).sum :=
          sum_map_addQ K _ _
      _ = f a + (t.map f).sum := by
          rw [sum_ite_singleQ K hnd (key a) (f a) (hcov a (List.mem_cons_self a t)),
            ih K hnd (fun x hx => hcov x (List.mem_cons_of_mem a hx))]
      _ = ((a :: t).map f).sum := by rw [List.map_cons, List.sum_cons]

theorem mapSet_ne_nil {β : Type} : ∀ (m : List (ℤ × β)) (k : ℤ) (v : β),
    mapSet m k v ≠ [] := by
  intro m k v
  cases m with
  | nil => simp [mapSet]
  | cons e rest =>
    unfold mapSet
    split <;> simp

/-- The unguarded millisecond scan of `calculateTotalHours` over an
alternating IN/OUT list: every pair is consumed, the slot ends empty. -/
theorem totalFold_sessJoin : ∀ (sl : List (ℤ × ℤ)) (acc : ℤ),
    (sessJoin sl).foldl totalStep (acc, none) =
      (acc + (sl.map (fun se => se.2 - se.1)).sum, none) := by
  intro sl
  induction sl with
  | nil => intro acc; simp [sessJoin]
  | cons se rest ih =>
    intro acc
    rw [show sessJoin (se :: rest) = ⟨se.1, .pin⟩ :: ⟨se.2, .pout⟩ :: sessJoin rest
      from rfl]
    rw [List.foldl_cons, List.foldl_cons]
    rw [show totalStep (acc, none) ⟨se.1, .pin⟩ = (acc, some se.1) from rfl]
    rw [show totalStep (acc, some se.1) ⟨se.2, .pout⟩ = (acc + (se.2 - se.1), none)
      from rfl]
    rw [ih]
    rw [List.map_cons, List.sum_cons]
    congr 1
    ring

/-- `calculateTotalHours` of a joined chain of 36 000 ms-divisible
sessions: the once-rounded total is the sum of the per-session
`calculateHoursBetween` values. -/
theorem calcTotal_sessJoin (sl : List (ℤ × ℤ)) (now : ℤ) (hc : SessChain sl)
    (hdvd : ∀ se ∈ sl, (36000 : ℤ) ∣ (se.2 - se.1)) :
    calculateTotalHours (sessJoin sl) now =
      (sl.map (fun se => calculateHoursBetween se.1 se.2)).sum := by
  cases sl with
  | nil => simp [calculateTotalHours, sessJoin]
  | cons se rest =>
    unfold calculateTotalHours
    rw [if_neg (show sessJoin (se :: rest) ≠ [] by simp [sessJoin])]
    dsimp only
    rw [show sortPunches (sessJoin (se :: rest)) = sessJoin (se :: rest) from
      List.Sorted.insertionSort_eq (sessJoin_sorted _ hc)]
    rw [totalFold_sessJoin (se :: rest) 0]
    dsimp only
    rw [zero_add]
    have hms : (36000 : ℤ) ∣ ((se :: rest).map (fun x => x.2 - x.1)).sum := by
      apply List.dvd_sum
      intro x hx
      obtain ⟨y, hy, rfl⟩ := List.mem_map.mp hx
      exact hdvd y hy
    rw [jsToFixed2_cent (cent_div_msPerHour hms)]
    rw [List.map_congr_left (fun x hx => calcHB_exact (hdvd x hx))]
    rw [show ((se :: rest).map fun x => ((x.2 - x.1 : ℤ) : ℚ) / msPerHour) =
        (((se :: rest).map fun x => x.2 - x.1).map fun n : ℤ => (n : ℚ) / msPerHour) by
      rw [List.map_map]
      rfl]
    rw [sum_msdiv]

/-- Rounded hundredths of an hour of an `n`-millisecond span: the integer
`toFixed(2)` numerator `floor(n/36000 + 1/2)`. -/
def hnd (n : ℤ) : ℤ := (n + 18000) / 36000

/-- `calculateHoursBetween` in integer hundredths. -/
theorem cHB_hnd (a b : ℤ) :
    calculateHoursBetween a b = ((hnd (b - a) : ℤ) : ℚ) / 100 := by
  unfold calculateHoursBetween jsToFixed2 hnd
  rw [ratFloor_eq_intFloor]
  rw [show ((b - a : ℤ) : ℚ) / msPerHour * 100 + 1 / 2 =
      ((b - a + 18000 : ℤ) : ℚ) / ((36000 : ℕ) : ℚ) by
    unfold msPerHour
    push_cast
    ring]
  rw [Rat.floor_intCast_div_natCast]
  norm_num

/-- The total hours the segment walk of `getDailyTotals` distributes over
day buckets, mirroring the control flow of `dailyWalkAux` (the exact-midnight
special case writes only a 0 entry, so it never changes the total). -/
def daySegSum (tOut : ℤ) : ℕ → ℤ → ℚ
  | 0, _ => 0
  | fuel + 1, cursor =>
    if cursor < tOut then
      (if cursor < (if tOut < getEndOfDay cursor then tOut else getEndOfDay cursor) then
        calculateHoursBetween cursor
          (if tOut < getEndOfDay cursor then tOut else getEndOfDay cursor)
      else 0) +
      (if tOut < getStartOfDay cursor + msPerDay ∧ isSameDay cursor tOut then 0
      else daySegSum tOut fuel (getStartOfDay cursor + msPerDay))
    else 0

theorem daySegSum_succ (tOut : ℤ) (fuel : ℕ) (cursor : ℤ) :
    daySegSum tOut (fuel + 1) cursor =
      if cursor < tOut then
        (if cursor < (if tOut < getEndOfDay cursor then tOut else getEndOfDay cursor) then
          calculateHoursBetween cursor
            (if tOut < getEndOfDay cursor then tOut else getEndOfDay cursor)
        else 0) +
        (if tOut < getStartOfDay cursor + msPerDay ∧ isSameDay cursor tOut then 0
        else daySegSum tOut fuel (getStartOfDay cursor + msPerDay))
      else 0 := rfl

theorem valsSum_walkBody (tOut cursor : ℤ) (m : List (ℤ × ℚ)) :
    valsSum (walkBody tOut cursor m) = valsSum m +
      (if cursor < (if tOut < getEndOfDay cursor then tOut else getEndOfDay cursor) then
        calculateHoursBetween cursor
          (if tOut < getEndOfDay cursor then tOut else getEndOfDay cursor)
      else 0) := by
  unfold walkBody
  dsimp only
  by_cases h : cursor < (if tOut < getEndOfDay cursor then tOut else getEndOfDay cursor)
  · rw [if_pos h, if_pos h, valsSum_mapAdd]
  · rw [if_neg h, if_neg h, add_zero]

/-- The value sum of the segment walk: the sum of the starting map plus the
per-day contributions of the walked session. -/
theorem valsSum_dailyWalkAux (tIn tOut : ℤ) :
    ∀ (fuel : ℕ) (cursor : ℤ) (m : List (ℤ × ℚ)),
      valsSum (dailyWalkAux tIn tOut fuel cursor m) =
        valsSum m + daySegSum tOut fuel cursor := by
  intro fuel
  induction fuel with
  | zero => intro cursor m; simp [dailyWalkAux, daySegSum]
  | succ fuel ih =>
    intro cursor m
    rw [dailyWalkAux_succ, daySegSum_succ]
    have hwb := valsSum_walkBody tOut cursor m
    by_cases h1 : cursor < tOut
    · rw [if_pos h1, if_pos h1]
      by_cases hA : tOut < getStartOfDay cursor + msPerDay ∧ isSameDay cursor tOut
      · rw [if_pos hA, if_pos hA]
        by_cases hB : tOut = getStartOfDay tOut ∧ ¬ isSameDay tIn tOut
        · rw [if_pos hB]
          by_cases hC : (mapGet (walkBody tOut cursor m) (getStartOfDay tOut)).isSome
          · rw [if_pos hC, hwb]
            ring
          · rw [if_neg hC]
            rw [valsSum_mapSet_new (walkBody tOut cursor m) (getStartOfDay tOut) 0
              (Option.not_isSome_iff_eq_none.mp hC), hwb]
            ring
        · rw [if_neg hB, hwb]
          ring
      · rw [if_neg hA, if_neg hA, ih, hwb]
        ring
    · rw [if_neg h1, if_neg h1]
      ring

theorem mapCent_walkBody (tOut cursor : ℤ) (m : List (ℤ × ℚ)) (hm : MapCent m) :
    MapCent (walkBody tOut cursor m) := by
  unfold walkBody
  dsimp only
  split <;> split
  · exact mapCent_mapAdd hm (cent_calculateHoursBetween _ _)
  · exact hm
  · exact mapCent_mapAdd hm (cent_calculateHoursBetween _ _)
  · exact hm

theorem mapCent_dailyWalkAux (tIn tOut : ℤ) :
    ∀ (fuel : ℕ) (cursor : ℤ) (m : List (ℤ × ℚ)), MapCent m →
      MapCent (dailyWalkAux tIn tOut fuel cursor m) := by
  intro fuel
  induction fuel with
  | zero => intro cursor m hm; exact hm
  | succ fuel ih =>
    intro cursor m hm
    rw [dailyWalkAux_succ]
    have hwb := mapCent_walkBody tOut cursor m hm
    split
    · split
      · split
        · split
          · exact hwb
          · exact mapCent_mapSet_zero hwb
        · exact hwb
      · exact ih _ _ hwb
    · exact hm

theorem mapCent_dailyWalk (s e : ℤ) (m : List (ℤ × ℚ)) (hm : MapCent m) :
    MapCent (dailyWalk s e m) := by
  unfold dailyWalk
  exact mapCent_dailyWalkAux s e _ s m hm

theorem walkBody_ne_nil_of (tOut cursor : ℤ) {m : List (ℤ × ℚ)} (hm : m ≠ []) :
    walkBody tOut cursor m ≠ [] := by
  unfold walkBody
  dsimp only
  split <;> split
  · exact mapSet_ne_nil _ _ _
  · exact hm
  · exact mapSet_ne_nil _ _ _
  · exact hm

theorem dailyWalkAux_ne_nil_of (tIn tOut : ℤ) :
    ∀ (fuel : ℕ) (cursor : ℤ) (m : List (ℤ × ℚ)), m ≠ [] →
      dailyWalkAux tIn tOut fuel cursor m ≠ [] := by
  intro fuel
  induction fuel with
  | zero => intro cursor m hm; exact hm
  | succ fuel ih =>
    intro cursor m hm
    rw [dailyWalkAux_succ]
    have hwb := walkBody_ne_nil_of tOut cursor hm
    split
    · split
      · split
        · split
          · exact hwb
          · exact mapSet_ne_nil _ _ _
        · exact hwb
      · exact ih _ _ hwb
    · exact hm

theorem dailyWalk_ne_nil_of {s e : ℤ} {m : List (ℤ × ℚ)} (hm : m ≠ []) :
    dailyWalk s e m ≠ [] := by
  unfold dailyWalk
  exact dailyWalkAux_ne_nil_of s e _ s m hm

/-- The per-day hundredths the walk hands out from `cursor` to `e`, with
`k` midnights in between: a first (possibly clipped) day, then day-start
to day-end segments. -/
def daysHnd : ℕ → ℤ → ℤ → ℤ
  | 0, cursor, e => hnd (e - cursor)
  | k + 1, cursor, e =>
    hnd (getEndOfDay cursor - cursor) + daysHnd k (getStartOfDay cursor + msPerDay) e

/-- Closed form of `daysHnd` across `k + 1` midnights: every full middle
day contributes exactly 24.00 (its 86 399 999 ms round up). -/
theorem daysHnd_closed : ∀ (k : ℕ) (cursor e : ℤ),
    e.fdiv msPerDay - cursor.fdiv msPerDay = (k : ℤ) + 1 →
    daysHnd (k + 1) cursor e =
      hnd (getEndOfDay cursor - cursor) + 2400 * (k : ℤ) +
        hnd (e - getStartOfDay e) := by
  intro k
  induction k with
  | zero =>
    intro cursor e hk
    show hnd (getEndOfDay cursor - cursor) +
        hnd (e - (getStartOfDay cursor + msPerDay)) = _
    have hnext : getStartOfDay cursor + msPerDay = getStartOfDay e := by
      rw [getStartOfDay_eq, getStartOfDay_eq, show msPerDay = 86400000 from rfl]
      rw [fdiv_day, fdiv_day] at hk
      omega
    rw [hnext]
    push_cast
    ring
  | succ k ih =>
    intro cursor e hk
    show hnd (getEndOfDay cursor - cursor) +
        daysHnd (k + 1) (getStartOfDay cursor + msPerDay) e = _
    have hk2 : e.fdiv msPerDay - (getStartOfDay cursor + msPerDay).fdiv msPerDay =
        (k : ℤ) + 1 := by
      rw [fdiv_day, fdiv_day, getStartOfDay_eq, show msPerDay = 86400000 from rfl]
      rw [fdiv_day, fdiv_day] at hk
      push_cast at hk ⊢
      omega
    rw [ih (getStartOfDay cursor + msPerDay) e hk2]
    have hend2 : hnd (getEndOfDay (getStartOfDay cursor + msPerDay) -
        (getStartOfDay cursor + msPerDay)) = 2400 := by
      rw [show getEndOfDay (getStartOfDay cursor + msPerDay) =
          getStartOfDay (getStartOfDay cursor + msPerDay) + 86399999 from rfl]
      rw [getStartOfDay_add_day]
      rw [show getStartOfDay cursor + msPerDay + 86399999 -
          (getStartOfDay cursor + msPerDay) = 86399999 from by ring]
      decide
    rw [hend2]
    push_cast
    ring

/-- When the session length is a whole number of hundredths of an hour,
the per-day rounded hundredths sum to the exact hundredths: the
millisecond each midnight split loses is exactly compensated by the
half-up rounding of the split residues. -/
theorem daysHnd_exact : ∀ (k : ℕ) (cursor e : ℤ), cursor ≤ e →
    e.fdiv msPerDay - cursor.fdiv msPerDay = (k : ℤ) →
    (36000 : ℤ) ∣ (e - cursor) →
    daysHnd k cursor e = (e - cursor) / 36000 := by
  intro k cursor e hle hk hdvd
  cases k with
  | zero =>
    show hnd (e - cursor) = _
    unfold hnd
    omega
  | succ k =>
    rw [daysHnd_closed k cursor e (by push_cast at hk ⊢; omega)]
    rw [show getEndOfDay cursor = getStartOfDay cursor + 86399999 from rfl]
    rw [getStartOfDay_eq, getStartOfDay_eq]
    unfold hnd
    rw [fdiv_day, fdiv_day] at hk
    push_cast at hk
    omega

/-- The hour total of the walk equals its integer-hundredths total. -/
theorem daySegSum_eq_daysHnd : ∀ (k : ℕ) (cursor e : ℤ), cursor ≤ e →
    e.fdiv msPerDay - cursor.fdiv msPerDay = (k : ℤ) →
    ∀ (fuel : ℕ), k + 1 ≤ fuel →
    daySegSum e fuel cursor = ((daysHnd k cursor e : ℤ) : ℚ) / 100 := by
  intro k
  induction k with
  | zero =>
    intro cursor e hle hk fuel hfuel
    obtain ⟨f, rfl⟩ : ∃ f, fuel = f + 1 := ⟨fuel - 1, by omega⟩
    rw [daySegSum_succ]
    rcases eq_or_lt_of_le hle with heq | hlt
    · rw [← heq]
      rw [if_neg (lt_irrefl cursor)]
      show (0 : ℚ) = ((daysHnd 0 cursor cursor : ℤ) : ℚ) / 100
      rw [show daysHnd 0 cursor cursor = hnd (cursor - cursor) from rfl]
      rw [show cursor - cursor = 0 from by ring, show hnd 0 = 0 from by decide]
      norm_num
    · rw [if_pos hlt]
      have hfd : cursor.fdiv msPerDay = e.fdiv msPerDay := by
        push_cast at hk
        linarith
      have h1 : cursor / 86400000 = e / 86400000 := by
        rw [← fdiv_day, ← fdiv_day, hfd]
      have hsd : isSameDay cursor e := hfd
      have hA : e < getStartOfDay cursor + msPerDay := by
        rw [getStartOfDay_eq, h1, show msPerDay = 86400000 from rfl]
        omega
      have hAnd : e < getStartOfDay cursor + msPerDay ∧ isSameDay cursor e := ⟨hA, hsd⟩
      rw [if_pos hAnd]
      have hend : (if e < getEndOfDay cursor then e else getEndOfDay cursor) = e := by
        rw [show getEndOfDay cursor = getStartOfDay cursor + 86399999 from rfl]
        rw [getStartOfDay_eq, h1]
        split <;> omega
      rw [hend, if_pos hlt, add_zero, cHB_hnd]
      rfl
  | succ k ih =>
    intro cursor e hle hk fuel hfuel
    obtain ⟨f, rfl⟩ : ∃ f, fuel = f + 1 := ⟨fuel - 1, by omega⟩
    rw [daySegSum_succ]
    have hfd : cursor / 86400000 < e / 86400000 := by
      rw [fdiv_day, fdiv_day] at hk
      push_cast at hk
      omega
    have hlt : cursor < e := by
      rcases eq_or_lt_of_le hle with heq | h
      · rw [heq] at hfd
        omega
      · exact h
    rw [if_pos hlt]
    have hnsd : ¬ (e < getStartOfDay cursor + msPerDay ∧ isSameDay cursor e) := by
      rintro ⟨-, hsd⟩
      have h2 : cursor.fdiv msPerDay = e.fdiv msPerDay := hsd
      rw [fdiv_day, fdiv_day] at h2
      omega
    rw [if_neg hnsd]
    have hnotlt : ¬ e < getEndOfDay cursor := by
      rw [show getEndOfDay cursor = getStartOfDay cursor + 86399999 from rfl]
      rw [getStartOfDay_eq]
      omega
    rw [if_neg hnotlt]
    have hfirst : (if cursor < getEndOfDay cursor then
        calculateHoursBetween cursor (getEndOfDay cursor) else 0) =
        ((hnd (getEndOfDay cursor - cursor) : ℤ) : ℚ) / 100 := by
      by_cases hc : cursor < getEndOfDay cursor
      · rw [if_pos hc, cHB_hnd]
      · rw [if_neg hc]
        have heq : getEndOfDay cursor = cursor :=
          le_antisymm (not_lt.mp hc) (le_getEndOfDay cursor)
        rw [heq, show cursor - cursor = 0 from by ring,
          show hnd 0 = 0 from by decide]
        norm_num
    rw [hfirst]
    have hnextle : getStartOfDay cursor + msPerDay ≤ e := by
      rw [getStartOfDay_eq, show msPerDay = 86400000 from rfl]
      omega
    have hk2 : e.fdiv msPerDay - (getStartOfDay cursor + msPerDay).fdiv msPerDay =
        (k : ℤ) := by
      rw [fdiv_day, fdiv_day, getStartOfDay_eq, show msPerDay = 86400000 from rfl]
      rw [fdiv_day, fdiv_day] at hk
      push_cast at hk ⊢
      omega
    rw [ih (getStartOfDay cursor + msPerDay) e hnextle hk2 f (by omega)]
    rw [show daysHnd (k + 1) cursor e = hnd (getEndOfDay cursor - cursor) +
        daysHnd k (getStartOfDay cursor + msPerDay) e from rfl]
    push_cast
    ring

/-- The value-sum effect of the walk of one closed session whose duration
is a whole number of hundredths of an hour: exactly the rounded duration. -/
theorem valsSum_dailyWalk {s e : ℤ} (hlt : s < e)
    (hdvd : (36000 : ℤ) ∣ (e - s)) (m : List (ℤ × ℚ)) :
    valsSum (dailyWalk s e m) = valsSum m + calculateHoursBetween s e := by
  unfold dailyWalk
  rw [valsSum_dailyWalkAux]
  have hnn : 0 ≤ e.fdiv msPerDay - s.fdiv msPerDay := by
    rw [fdiv_day, fdiv_day]
    omega
  have hk : e.fdiv msPerDay - s.fdiv msPerDay =
      (((e.fdiv msPerDay - s.fdiv msPerDay).toNat : ℕ) : ℤ) :=
    (Int.toNat_of_nonneg hnn).symm
  rw [daySegSum_eq_daysHnd ((e.fdiv msPerDay - s.fdiv msPerDay).toNat) s e
    (le_of_lt hlt) hk _ (le_refl _)]
  rw [daysHnd_exact _ s e (le_of_lt hlt) hk hdvd]
  rw [cHB_hnd]
  rw [show hnd (e - s) = (e - s) / 36000 from by unfold hnd; omega]

/-- A session in whole hundredths of an hour always records at least one
day bucket (its duration is at least 36 s, so at least one segment is
non-degenerate). -/
theorem dailyWalk_ne_nil {s e : ℤ} (hlt : s < e)
    (hdvd : (36000 : ℤ) ∣ (e - s)) (m : List (ℤ × ℚ)) :
    dailyWalk s e m ≠ [] := by
  have hgap : s + 36000 ≤ e := by
    obtain ⟨q, hq⟩ := hdvd
    omega
  unfold dailyWalk
  rw [dailyWalkAux_succ, if_pos hlt]
  by_cases hend : s < getEndOfDay s
  · have hwb : walkBody e s m ≠ [] := by
      unfold walkBody
      dsimp only
      have hseg : s < (if e < getEndOfDay s then e else getEndOfDay s) := by
        split
        · exact hlt
        · exact hend
      rw [if_pos hseg]
      exact mapSet_ne_nil _ _ _
    split
    · split
      · split
        · exact hwb
        · exact mapSet_ne_nil _ _ _
      · exact hwb
    · exact dailyWalkAux_ne_nil_of _ _ _ _ _ hwb
  · have hs : s = 86400000 * (s / 86400000) + 86399999 := by
      have h3 : s = getEndOfDay s :=
        le_antisymm (le_getEndOfDay s) (not_lt.mp hend)
      rw [show getEndOfDay s = getStartOfDay s + 86399999 from rfl,
        getStartOfDay_eq] at h3
      exact h3
    have hwb : walkBody e s m = m := by
      unfold walkBody
      dsimp only
      have hseg : (if e < getEndOfDay s then e else getEndOfDay s) = getEndOfDay s := by
        rw [if_neg (not_lt.mpr ?_)]
        rw [show getEndOfDay s = getStartOfDay s + 86399999 from rfl, getStartOfDay_eq]
        omega
      rw [hseg, if_neg hend]
    rw [hwb]
    have hnsd : ¬ (e < getStartOfDay s + msPerDay ∧ isSameDay s e) := by
      rintro ⟨-, hsd⟩
      have h2 : s / 86400000 = e / 86400000 := by
        rw [← fdiv_day, ← fdiv_day]
        exact hsd
      omega
    rw [if_neg hnsd]
    obtain ⟨K, hK⟩ : ∃ K, (e.fdiv msPerDay - s.fdiv msPerDay).toNat = K + 1 := by
      have hge : 1 ≤ e.fdiv msPerDay - s.fdiv msPerDay := by
        rw [fdiv_day, fdiv_day]
        omega
      exact ⟨(e.fdiv msPerDay - s.fdiv msPerDay).toNat - 1, by omega⟩
    rw [hK, dailyWalkAux_succ]
    have hc2 : getStartOfDay s + msPerDay < e := by
      rw [getStartOfDay_eq, show msPerDay = 86400000 from rfl]
      omega
    rw [if_pos hc2]
    have hwb2 : walkBody e (getStartOfDay s + msPerDay) m ≠ [] := by
      unfold walkBody
      dsimp only
      have hc2end : getStartOfDay s + msPerDay <
          getEndOfDay (getStartOfDay s + msPerDay) := by
        rw [show getEndOfDay (getStartOfDay s + msPerDay) =
            getStartOfDay (getStartOfDay s + msPerDay) + 86399999 from rfl]
        rw [getStartOfDay_add_day]
        omega
      have hseg : getStartOfDay s + msPerDay <
          (if e < getEndOfDay (getStartOfDay s + msPerDay) then e
          else getEndOfDay (getStartOfDay s + msPerDay)) := by
        split
        · exact hc2
        · exact hc2end
      rw [if_pos hseg]
      exact mapSet_ne_nil _ _ _
    split
    · split
      · split
        · exact hwb2
        · exact mapSet_ne_nil _ _ _
      · exact hwb2
    · exact dailyWalkAux_ne_nil_of _ _ _ _ _ hwb2

/-- The cumulative day-bucket map of a session list, one `dailyWalk` per
session, as the pairing loop of `getDailyTotals` produces it on a joined chain. -/
def walkFold (sl : List (ℤ × ℤ)) (m : List (ℤ × ℚ)) : List (ℤ × ℚ) :=
  sl.foldl (fun mm se => dailyWalk se.1 se.2 mm) m

theorem dailyFold_sessJoin_walk : ∀ (sl : List (ℤ × ℤ)), SessChain sl →
    ∀ (m : List (ℤ × ℚ)),
      (sessJoin sl).foldl dailyStep (m, none) = (walkFold sl m, none) := by
  intro sl
  induction sl with
  | nil => intro _ m; rfl
  | cons se rest ih =>
    intro hc m
    rw [show sessJoin (se :: rest) = ⟨se.1, .pin⟩ :: ⟨se.2, .pout⟩ :: sessJoin rest
      from rfl]
    rw [List.foldl_cons, List.foldl_cons]
    rw [show dailyStep (m, none) ⟨se.1, .pin⟩ = (m, some se.1) from rfl]
    have hstep : dailyStep (m, some se.1) ⟨se.2, .pout⟩ = (dailyWalk se.1 se.2 m, none) := by
      unfold dailyStep
      dsimp only
      rw [if_neg (not_le.mpr hc.1)]
    rw [hstep, ih hc.2.2]
    rfl

theorem valsSum_walkFold : ∀ (sl : List (ℤ × ℤ)), SessChain sl →
    (∀ se ∈ sl, (36000 : ℤ) ∣ (se.2 - se.1)) → ∀ (m : List (ℤ × ℚ)),
      valsSum (walkFold sl m) =
        valsSum m + (sl.map (fun se => calculateHoursBetween se.1 se.2)).sum := by
  intro sl
  induction sl with
  | nil => intro _ _ m; simp [walkFold]
  | cons se rest ih =>
    intro hc hdvd m
    rw [show walkFold (se :: rest) m = walkFold rest (dailyWalk se.1 se.2 m) from rfl]
    rw [ih hc.2.2 (fun x hx => hdvd x (List.mem_cons_of_mem se hx))]
    rw [valsSum_dailyWalk hc.1 (hdvd se (List.mem_cons_self se rest))]
    rw [List.map_cons, List.sum_cons]
    ring

theorem mapCent_walkFold : ∀ (sl : List (ℤ × ℤ)) (m : List (ℤ × ℚ)),
    MapCent m → MapCent (walkFold sl m) := by
  intro sl
  induction sl with
  | nil => intro m hm; exact hm
  | cons se rest ih =>
    intro m hm
    exact ih _ (mapCent_dailyWalk _ _ _ hm)

theorem walkFold_ne_nil_of : ∀ (sl : List (ℤ × ℤ)) (m : List (ℤ × ℚ)),
    m ≠ [] → walkFold sl m ≠ [] := by
  intro sl
  induction sl with
  | nil => intro m hm; exact hm
  | cons se rest ih =>
    intro m hm
    exact ih _ (dailyWalk_ne_nil_of hm)

theorem walkFold_cons_ne_nil {se : ℤ × ℤ} (rest : List (ℤ × ℤ))
    (m : List (ℤ × ℚ)) (h1 : se.1 < se.2) (h2 : (36000 : ℤ) ∣ (se.2 - se.1)) :
    walkFold (se :: rest) m ≠ [] :=
  walkFold_ne_nil_of rest _ (dailyWalk_ne_nil h1 h2 m)

theorem valsSum_perm {m1 m2 : List (ℤ × ℚ)} (h : m1.Perm m2) :
    valsSum m1 = valsSum m2 :=
  (h.map Prod.snd).sum_eq

/-- Restricting `sessJoin` to one week keeps whole sessions when each
session's two punches lie in the same week. -/
theorem weekFilter_sessJoin (w : ℤ) : ∀ (sl : List (ℤ × ℤ)),
    (∀ se ∈ sl, getStartOfWeek se.1 = getStartOfWeek se.2) →
    weekFilter w (sessJoin sl) =
      sessJoin (sl.filter (fun se => decide (getStartOfWeek se.1 = w))) := by
  intro sl
  induction sl with
  | nil => intro _; rfl
  | cons se rest ih =>
    intro hw
    have hrest := ih (fun x hx => hw x (List.mem_cons_of_mem se hx))
    have hsame := hw se (List.mem_cons_self se rest)
    rw [show sessJoin (se :: rest) = ⟨se.1, .pin⟩ :: ⟨se.2, .pout⟩ :: sessJoin rest
      from rfl]
    unfold weekFilter at hrest ⊢
    by_cases hcond : getStartOfWeek se.1 = w
    · have h2 : getStartOfWeek se.2 = w := by rw [← hsame]; exact hcond
      simp only [List.filter_cons]
      simp [hcond, h2, hrest, sessJoin]
    · have h2 : ¬ getStartOfWeek se.2 = w := fun hh => hcond (hsame.trans hh)
      simp only [List.filter_cons]
      simp [hcond, h2, hrest]

theorem valsSum_fillDays (e c : ℤ) (m : List (ℤ × ℚ)) :
    valsSum (fillDays e c m) = valsSum m := by
  unfold fillDays
  exact valsSum_fillDaysAux e _ c m

theorem mapCent_fillDays (e c : ℤ) (m : List (ℤ × ℚ)) (hm : MapCent m) :
    MapCent (fillDays e c m) := by
  unfold fillDays
  exact mapCent_fillDaysAux e _ c m hm

/-- The day-bucket hour sum of a joined chain of sessions in whole
hundredths of an hour (midnight-crossing sessions allowed) is the sum of
the per-session rounded durations. -/
theorem daily_sum_sessJoin (se0 : ℤ × ℤ) (rest : List (ℤ × ℤ)) (now : ℤ)
    (hc : SessChain (se0 :: rest))
    (hdvd : ∀ se ∈ se0 :: rest, (36000 : ℤ) ∣ (se.2 - se.1)) :
    ((getDailyTotals (sessJoin (se0 :: rest)) now).map Prod.snd).sum =
      ((se0 :: rest).map (fun se => calculateHoursBetween se.1 se.2)).sum := by
  have hne : sessJoin (se0 :: rest) ≠ [] := by simp [sessJoin]
  have hsorted : sortPunches (sessJoin (se0 :: rest)) = sessJoin (se0 :: rest) :=
    List.Sorted.insertionSort_eq (sessJoin_sorted _ hc)
  have hmd : dailyMapOf (sessJoin (se0 :: rest)) now =
      (walkFold (se0 :: rest) [], none) := by
    unfold dailyMapOf
    dsimp only
    rw [dailyFold_sessJoin_walk (se0 :: rest) hc []]
  unfold getDailyTotals
  rw [if_neg hne]
  dsimp only
  rw [hsorted, hmd]
  dsimp only
  rw [if_neg (walkFold_cons_ne_nil rest [] hc.1
    (hdvd se0 (List.mem_cons_self se0 rest)))]
  set B := dailyBounds (sessJoin (se0 :: rest)) none now with hB
  have hcent : MapCent (fillDays B.2 B.1 (walkFold (se0 :: rest) [])) :=
    mapCent_fillDays _ _ _
      (mapCent_walkFold _ _ (fun e he => absurd he (List.not_mem_nil e)))
  show valsSum (((fillDays B.2 B.1 (walkFold (se0 :: rest) [])).map
      (fun e => (e.1, jsToFixed2 e.2))).insertionSort entryGE) = _
  rw [valsSum_perm (List.perm_insertionSort entryGE
    ((fillDays B.2 B.1 (walkFold (se0 :: rest) [])).map (fun e => (e.1, jsToFixed2 e.2))))]
  rw [show valsSum ((fillDays B.2 B.1 (walkFold (se0 :: rest) [])).map
      (fun e => (e.1, jsToFixed2 e.2))) =
    valsSum (fillDays B.2 B.1 (walkFold (se0 :: rest) [])) from valsSum_round_of_cent hcent]
  rw [valsSum_fillDays, valsSum_walkFold (se0 :: rest) hc hdvd]
  simp [valsSum]

/-- The week-bucket hour sum of a joined chain of week-respecting
sessions in whole hundredths of an hour is the same per-session sum. -/
theorem weekly_sum_sessJoin (se0 : ℤ × ℤ) (rest : List (ℤ × ℤ)) (now : ℤ)
    (hc : SessChain (se0 :: rest))
    (hweek : ∀ se ∈ se0 :: rest, getStartOfWeek se.1 = getStartOfWeek se.2)
    (hdvd : ∀ se ∈ se0 :: rest, (36000 : ℤ) ∣ (se.2 - se.1)) :
    ((getWeeklyTotals (sessJoin (se0 :: rest)) now).map Prod.snd).sum =
      ((se0 :: rest).map (fun se => calculateHoursBetween se.1 se.2)).sum := by
  have hne : sessJoin (se0 :: rest) ≠ [] := by simp [sessJoin]
  unfold getWeeklyTotals
  rw [if_neg hne]
  dsimp only
  set G := (sessJoin (se0 :: rest)).foldl groupStep [] with hG
  have hGkeys : (G.map Prod.fst).Nodup := by
    rw [hG]
    exact groupFold_keys_nodup _ [] (by simp)
  have hentry : ∀ e ∈ G, calculateTotalHours e.2 now =
      (((se0 :: rest).filter (fun x => decide (getStartOfWeek x.1 = e.1))).map
        (fun x => calculateHoursBetween x.1 x.2)).sum := by
    intro e he
    have he' : (e.1, e.2) ∈ G := by rw [Prod.mk.eta]; exact he
    have hget : mapGet G e.1 = some e.2 :=
      (mapGet_some_iff_mem G hGkeys e.1 e.2).mpr he'
    have hchar := groupFold_get e.1 (sessJoin (se0 :: rest)) []
    rw [show mapGet ([] : List (ℤ × List Punch)) e.1 = none from rfl] at hchar
    rw [← hG] at hchar
    rw [hchar] at hget
    by_cases hf : weekFilter e.1 (sessJoin (se0 :: rest)) = []
    · rw [if_pos hf] at hget
      cases hget
    · rw [if_neg hf] at hget
      have he2 : e.2 = weekFilter e.1 (sessJoin (se0 :: rest)) :=
        (Option.some_inj.mp hget).symm
      rw [he2, weekFilter_sessJoin e.1 (se0 :: rest) hweek]
      exact calcTotal_sessJoin _ now (sessChain_of_filter _ _ hc)
        (fun x hx => hdvd x (List.mem_of_mem_filter hx))
  have hcov : ∀ x ∈ se0 :: rest, getStartOfWeek x.1 ∈ G.map Prod.fst := by
    intro x hx
    have hpm : (⟨x.1, .pin⟩ : Punch) ∈ sessJoin (se0 :: rest) :=
      sessJoin_mem_in _ x hx
    have hfne : weekFilter (getStartOfWeek x.1) (sessJoin (se0 :: rest)) ≠ [] := by
      unfold weekFilter
      exact List.ne_nil_of_mem (List.mem_filter.mpr ⟨hpm, by simp⟩)
    have hchar := groupFold_get (getStartOfWeek x.1) (sessJoin (se0 :: rest)) []
    rw [show mapGet ([] : List (ℤ × List Punch)) (getStartOfWeek x.1) = none
      from rfl] at hchar
    rw [← hG] at hchar
    rw [if_neg hfne] at hchar
    exact List.mem_map_of_mem Prod.fst (mapGet_some_mem G _ _ hchar)
  show valsSum ((G.map fun e => (e.1, calculateTotalHours e.2 now)).insertionSort entryGE) = _
  rw [valsSum_perm (List.perm_insertionSort entryGE
    (G.map fun e => (e.1, calculateTotalHours e.2 now)))]
  rw [show valsSum (G.map fun e => (e.1, calculateTotalHours e.2 now)) =
      (G.map fun e => calculateTotalHours e.2 now).sum by
    unfold valsSum
    rw [List.map_map]
    rfl]
  rw [List.map_congr_left hentry]
  rw [show (G.map fun e => (((se0 :: rest).filter fun x =>
        decide (getStartOfWeek x.1 = e.1)).map fun x =>
          calculateHoursBetween x.1 x.2).sum) =
      ((G.map Prod.fst).map fun w => (((se0 :: rest).filter fun x =>
        decide (getStartOfWeek x.1 = w)).map fun x =>
          calculateHoursBetween x.1 x.2).sum) by
    rw [List.map_map]
    rfl]
  have hpart := sum_filter_partition (fun x : ℤ × ℤ => getStartOfWeek x.1)
    (fun x : ℤ × ℤ => calculateHoursBetween x.1 x.2) (se0 :: rest)
    (G.map Prod.fst) hGkeys hcov
  exact hpart

/-- **C6.** For every punch set in which no session crosses a Sunday-start
week boundary — a chronologically ordered chain of closed sessions, each
with its IN and OUT in the same local week — whose session durations are
whole numbers of hundredths of an hour (divisible by 36 000 ms, so that
the differing rounding granularity of the two paths, refuted separately in
`claim6_cex`, cannot interfere), the sum of hours over all DayBuckets of
`getDailyTotals` equals the sum of hours over all WeekBuckets of
`getWeeklyTotals`, with `now` held fixed.  Midnight-crossing sessions are
covered: per day the walk rounds a split segment, and the lost midnight
millisecond is exactly compensated by the half-up rounding of the two
residues. -/
theorem claim6_amended_daily_eq_weekly (sess : List (ℤ × ℤ)) (now : ℤ)
    (hc : SessChain sess)
    (hweek : ∀ se ∈ sess, getStartOfWeek se.1 = getStartOfWeek se.2)
    (hdvd : ∀ se ∈ sess, (36000 : ℤ) ∣ (se.2 - se.1)) :
    ((getDailyTotals (sessJoin sess) now).map Prod.snd).sum =
      ((getWeeklyTotals (sessJoin sess) now).map Prod.snd).sum := by
  cases sess with
  | nil => rfl
  | cons se0 rest =>
    rw [daily_sum_sessJoin se0 rest now hc hdvd,
      weekly_sum_sessJoin se0 rest now hc hweek hdvd]

/-- The C6 equality evaluated on a concrete chain exercising the midnight
split: a 10-hour session on 2024-01-01 (09:00–19:00 UTC) followed by a
2-hour overnight session (Jan 1 23:00 UTC – Jan 2 01:00 UTC), both in the
week of Sunday 2023-12-31. -/
theorem claim6_witness :
    (SessChain [((1704099600000 : ℤ), (1704135600000 : ℤ)),
        ((1704150000000 : ℤ), (1704157200000 : ℤ))] ∧
      (∀ se ∈ [((1704099600000 : ℤ), (1704135600000 : ℤ)),
          ((1704150000000 : ℤ), (1704157200000 : ℤ))],
        getStartOfWeek se.1 = getStartOfWeek se.2) ∧
      (∀ se ∈ [((1704099600000 : ℤ), (1704135600000 : ℤ)),
          ((1704150000000 : ℤ), (1704157200000 : ℤ))],
        (36000 : ℤ) ∣ (se.2 - se.1))) ∧
    ((getDailyTotals (sessJoin [((1704099600000 : ℤ), (1704135600000 : ℤ)),
        ((1704150000000 : ℤ), (1704157200000 : ℤ))]) 0).map Prod.snd).sum =
      ((getWeeklyTotals (sessJoin [((1704099600000 : ℤ), (1704135600000 : ℤ)),
        ((1704150000000 : ℤ), (1704157200000 : ℤ))]) 0).map Prod.snd).sum := by
  have h1 : SessChain [((1704099600000 : ℤ), (1704135600000 : ℤ)),
      ((1704150000000 : ℤ), (1704157200000 : ℤ))] := by
    refine ⟨by norm_num, ?_, by norm_num, ?_, trivial⟩
    · intro se2 h
      rw [List.mem_singleton] at h
      subst h
      norm_num
    · intro se2 h
      exact absurd h (List.not_mem_nil se2)
  have h2 : ∀ se ∈ [((1704099600000 : ℤ), (1704135600000 : ℤ)),
      ((1704150000000 : ℤ), (1704157200000 : ℤ))],
      getStartOfWeek se.1 = getStartOfWeek se.2 := by
    intro se h
    rcases List.mem_cons.mp h with rfl | h
    · decide
    · rw [List.mem_singleton] at h
      subst h
      decide
  have h3 : ∀ se ∈ [((1704099600000 : ℤ), (1704135600000 : ℤ)),
      ((1704150000000 : ℤ), (1704157200000 : ℤ))],
      (36000 : ℤ) ∣ (se.2 - se.1) := by
    intro se h
    rcases List.mem_cons.mp h with rfl | h
    · exact ⟨1000, by norm_num⟩
    · rw [List.mem_singleton] at h
      subst h
      exact ⟨200, by norm_num⟩
  exact ⟨⟨h1, h2, h3⟩, claim6_amended_daily_eq_weekly _ 0 h1 h2 h3⟩

end Clocker
